import Mathlib

/-!
# Verification of the correlogram computation core of `spikeinterface/postprocessing/correlograms.py`

This file gives a shallow embedding of the numeric core of
`src/spikeinterface/postprocessing/correlograms.py`:

* the bin planner `_make_bins` (rational arithmetic with Python's
  round-half-to-even; the source works on IEEE doubles, which agree with exact
  rational arithmetic on all inputs considered here),
* the vectorized ("numpy") strategy `correlogram_for_one_segment` /
  `compute_correlograms_numpy` (the phy shift-and-mask algorithm),
* the pairwise ("numba") strategy `_compute_autocorr_numba` /
  `_compute_crosscorr_numba` / `_compute_correlograms_numba` /
  `compute_correlograms_numba`,
* the facade `compute_correlograms_on_sorting`.

Python's `//` and `%` on integers are floor division and the matching
remainder, embedded as `Int.fdiv` / `Int.fmod`.  NumPy arrays are embedded as
total functions from indices together with their shape; out-of-range writes
(which raise `IndexError` in pure Python and are undefined behaviour under
numba's nopython mode) are embedded as `Except.error`.  Loops are embedded as
structurally recursive functions on an explicit fuel argument; every caller
passes enough fuel that the fuel branch is unreachable, which is proved where
needed.  Counts are embedded as unbounded naturals: the source uses int64
accumulators and the counts are bounded by the square of the number of
events, so overflow is unreachable in any faithful run.
-/

namespace Correlograms

/-! ## Bin planner (`_make_bins`)

Python's `round` is round-half-to-even.  The source computes
`int(round(fs * window_ms / 2 * 1e-3))` and `int(round(fs * bin_ms * 1e-3))`
on doubles; we model real arithmetic exactly on `ℚ`. -/

def pythonRound (q : ℚ) : ℤ :=
  let f : ℤ := ⌊q⌋
  let r : ℚ := q - f
  if r < 1/2 then f
  else if 1/2 < r then f + 1
  else if Even f then f else f + 1

/-- `np.arange(start, stop, step)` for integer arguments and positive `step`:
the values `start + k * step` for `0 ≤ k < ⌈(stop - start) / step⌉`. -/
def arangeZ (start stop step : ℤ) : List ℤ :=
  (List.range ((stop - start + step - 1).fdiv step).toNat).map
    (fun k : ℕ => start + (k : ℤ) * step)

/-- Embedding of `_make_bins(sorting, window_ms, bin_ms)` (the sorting only
contributes its sampling frequency `fs`).  A zero `bin_size` raises
`ZeroDivisionError` at `window_size % bin_size`; a degenerate geometry fails
the `assert num_bins >= 1`.  Either way no partial result is produced. -/
def makeBins (fs window_ms bin_ms : ℚ) : Except String (List ℚ × ℤ × ℤ) :=
  let window_size0 : ℤ := pythonRound (fs * window_ms / 2 * (1/1000))
  let bin_size : ℤ := pythonRound (fs * bin_ms * (1/1000))
  if bin_size = 0 then .error "ZeroDivisionError: integer division or modulo by zero"
  else
    let window_size : ℤ := window_size0 - window_size0.fmod bin_size
    let num_bins : ℤ := 2 * window_size.fdiv bin_size
    if 1 ≤ num_bins then
      .ok ((arangeZ (-window_size) (window_size + bin_size) bin_size).map
            (fun z : ℤ => (z : ℚ) * 1000 / fs), window_size, bin_size)
    else .error "AssertionError: num_bins must be at least 1"

/-- `_compute_num_bins`: `num_half_bins = window_size // bin_size`. -/
def numHalfBins (window_size bin_size : ℤ) : ℤ := window_size.fdiv bin_size

/-- `_compute_num_bins`: `num_bins = 2 * num_half_bins` (as an array extent). -/
def numBins (window_size bin_size : ℤ) : ℕ := (2 * numHalfBins window_size bin_size).toNat

/-! ## Data model

A `Sorting` supplies exactly what the engine reads from the collaborator:
the sampling frequency, the total unit count (`len(sorting.unit_ids)`), and,
per segment, the flat arrays `sample_index` / `unit_index` produced by
`sorting.to_spike_vector(concatenated=False)`. -/

structure Sorting where
  sampling_frequency : ℚ
  num_units : ℕ
  segments : List (List ℤ × List ℕ)

/-- A NumPy `(units, units, bins)` int64 array: its shape together with a
total function giving the entries (zero outside the shape). -/
structure NPTensor where
  units : ℕ
  bins : ℕ
  val : ℕ → ℕ → ℕ → ℕ

/-- Read `spike_times[i]`. -/
def getI (ts : List ℤ) (i : ℕ) : ℤ := ts.getD i 0

/-- Read `spike_labels[i]`. -/
def getL (ls : List ℕ) (i : ℕ) : ℕ := ls.getD i 0

/-! ## Vectorized strategy (`correlogram_for_one_segment`, numpy)

The phy algorithm: a while loop over `shift`, keeping a boolean mask of
spikes that still have a matching spike within the window.  The mask and the
correlogram array are embedded as total functions; the
`ravel_multi_index` / `bincount` bulk increment is embedded as a fold of unit
increments over the still-active indices (both add one per active index to
the addressed cell). -/

/-- `spike_diff[i] = spike_times[i + shift] - spike_times[i]`. -/
def spikeDiff (ts : List ℤ) (shift i : ℕ) : ℤ := getI ts (i + shift) - getI ts i

/-- Increment one cell of the correlogram; the bin address is kept in `ℤ`
because `spike_diff_b + num_half_bins` is signed in the source. -/
def bumpZ (T : ℕ → ℕ → ℕ → ℕ) (x y : ℕ) (z : ℤ) : ℕ → ℕ → ℕ → ℕ :=
  fun a b k => if a = x ∧ b = y ∧ (k : ℤ) = z then T a b k + 1 else T a b k

/-- `mask[:-shift][spike_diff_b < -num_half_bins] = False` for `sign = -1`. -/
def maskNegUpd (ts : List ℤ) (bin_size H : ℤ) (shift : ℕ) (mask : ℕ → Bool) : ℕ → Bool :=
  fun i =>
    if i < ts.length - shift ∧ (spikeDiff ts shift i * (-1)).fdiv bin_size < -H then false
    else mask i

/-- `mask[:-shift][spike_diff_b >= num_half_bins] = False` for `sign = 1`. -/
def maskPosUpd (ts : List ℤ) (bin_size H : ℤ) (shift : ℕ) (mask : ℕ → Bool) : ℕ → Bool :=
  fun i =>
    if i < ts.length - shift ∧ H ≤ (spikeDiff ts shift i).fdiv bin_size then false
    else mask i

/-- The `sign = -1` bulk increment: for every still-active `i`, increment
`correlograms[spike_labels[i], spike_labels[i + shift], spike_diff_b[i] + num_half_bins]`. -/
def countNeg (ts : List ℤ) (ls : List ℕ) (bin_size H : ℤ) (shift : ℕ) (mask : ℕ → Bool)
    (T : ℕ → ℕ → ℕ → ℕ) : ℕ → ℕ → ℕ → ℕ :=
  (List.range (ts.length - shift)).foldl
    (fun acc i =>
      if mask i then
        bumpZ acc (getL ls i) (getL ls (i + shift))
          ((spikeDiff ts shift i * (-1)).fdiv bin_size + H)
      else acc) T

/-- The `sign = 1` bulk increment: for every still-active `i`, increment
`correlograms[spike_labels[i + shift], spike_labels[i], spike_diff_b[i] + num_half_bins]`. -/
def countPos (ts : List ℤ) (ls : List ℕ) (bin_size H : ℤ) (shift : ℕ) (mask : ℕ → Bool)
    (T : ℕ → ℕ → ℕ → ℕ) : ℕ → ℕ → ℕ → ℕ :=
  (List.range (ts.length - shift)).foldl
    (fun acc i =>
      if mask i then
        bumpZ acc (getL ls (i + shift)) (getL ls i)
          ((spikeDiff ts shift i).fdiv bin_size + H)
      else acc) T

/-- One iteration of the while loop: the `for sign in (-1, 1)` body.  For each
sign the mask update happens before the increments, exactly as in the source. -/
def npShiftStep (ts : List ℤ) (ls : List ℕ) (bin_size H : ℤ) (shift : ℕ)
    (mask : ℕ → Bool) (T : ℕ → ℕ → ℕ → ℕ) : (ℕ → Bool) × (ℕ → ℕ → ℕ → ℕ) :=
  let mask1 := maskNegUpd ts bin_size H shift mask
  let T1 := countNeg ts ls bin_size H shift mask1 T
  let mask2 := maskPosUpd ts bin_size H shift mask1
  let T2 := countPos ts ls bin_size H shift mask2 T1
  (mask2, T2)

/-- The `while mask[:-shift].any()` loop.  The fuel argument only makes the
recursion structural: every caller passes `ts.length` fuel at `shift = 1`,
and the guard is necessarily false once `shift ≥ ts.length`, so the
fuel-exhausted branch is unreachable (see `npLoop_fuel_irrelevant`). -/
def npLoop (ts : List ℤ) (ls : List ℕ) (bin_size H : ℤ) :
    ℕ → ℕ → (ℕ → Bool) → (ℕ → ℕ → ℕ → ℕ) → (ℕ → ℕ → ℕ → ℕ)
  | 0, _, _, T => T
  | fuel + 1, shift, mask, T =>
      if (List.range (ts.length - shift)).any (fun i => mask i) then
        let p := npShiftStep ts ls bin_size H shift mask T
        npLoop ts ls bin_size H fuel (shift + 1) p.1 p.2
      else T

/-- `num_units = len(np.unique(spike_labels))`: the number of distinct labels
present in this segment (not the total unit count of the sorting). -/
def uniqueCount (ls : List ℕ) : ℕ := ls.dedup.length

/-- Embedding of `correlogram_for_one_segment(spike_times, spike_labels,
window_size, bin_size)`. -/
def correlogram_for_one_segment (ts : List ℤ) (ls : List ℕ) (window_size bin_size : ℤ) :
    NPTensor :=
  ⟨uniqueCount ls, numBins window_size bin_size,
    npLoop ts ls bin_size (numHalfBins window_size bin_size) ts.length 1
      (fun _ => true) (fun _ _ _ => 0)⟩

/-- The in-place `correlograms += c0` of `compute_correlograms_numpy`.
NumPy broadcasting of the right operand to the accumulator's shape: equal
shapes add elementwise; a size-one unit extent stretches; anything else
(notably the size-zero extents produced by an empty segment when the sorting
has at least one unit) raises a broadcast `ValueError`. -/
def npAddInto (acc c0 : NPTensor) : Except String NPTensor :=
  if c0.units = acc.units ∧ c0.bins = acc.bins then
    .ok ⟨acc.units, acc.bins, fun a b k => acc.val a b k + c0.val a b k⟩
  else if c0.units = 1 ∧ c0.bins = acc.bins then
    .ok ⟨acc.units, acc.bins, fun a b k => acc.val a b k + c0.val 0 0 k⟩
  else .error "ValueError: operands could not be broadcast together"

/-- Embedding of `compute_correlograms_numpy(sorting, window_size, bin_size)`. -/
def compute_correlograms_numpy (s : Sorting) (window_size bin_size : ℤ) :
    Except String NPTensor :=
  s.segments.foldlM
    (fun acc seg => npAddInto acc (correlogram_for_one_segment seg.1 seg.2 window_size bin_size))
    ⟨s.num_units, numBins window_size bin_size, fun _ _ _ => 0⟩

/-! ## Pairwise strategy (numba)

The active numba path is `_compute_correlograms_numba`, which dispatches to
`_compute_autocorr_numba` / `_compute_crosscorr_numba` per unit pair (the
rewritten `_compute_correlograms_one_segment_numba` is only called under
`if False:` and is dead code).  One-dimensional count arrays are embedded as
total functions `ℕ → ℕ`; a write at an index outside `[0, num_bins)` — an
`IndexError` in pure Python, undefined behaviour under numba's nopython
mode — is embedded as `Except.error`. -/

/-- `arr[z] += 1` with the bounds check NumPy would perform. -/
def arrBump (nb : ℕ) (f : ℕ → ℕ) (z : ℤ) : Except String (ℕ → ℕ) :=
  if 0 ≤ z ∧ z < (nb : ℤ) then
    .ok (fun k => if (k : ℤ) = z then f k + 1 else f k)
  else .error "IndexError: index out of bounds"

/-- Inner loop of `_compute_autocorr_numba`: `for j in range(i + 1, n)` with
`break` on `diff > window_size`, then the two increments at
`num_half_bins + floor(diff / bin_size)` and `num_half_bins + floor(-diff / bin_size)`.
Structural recursion on fuel; callers pass `ts.length` fuel. -/
def autoInner (ts : List ℤ) (window_size bin_size H : ℤ) (nb : ℕ) (i : ℕ) :
    ℕ → ℕ → (ℕ → ℕ) → Except String (ℕ → ℕ)
  | 0, _, acc => .ok acc
  | fuel + 1, j, acc =>
      if j < ts.length then
        let diff := getI ts j - getI ts i
        if window_size < diff then .ok acc
        else do
          let acc ← arrBump nb acc (H + diff.fdiv bin_size)
          let acc ← arrBump nb acc (H + (-diff).fdiv bin_size)
          autoInner ts window_size bin_size H nb i fuel (j + 1) acc
      else .ok acc

/-- Outer loop of `_compute_autocorr_numba`: `for i in range(n)`. -/
def autoOuter (ts : List ℤ) (window_size bin_size H : ℤ) (nb : ℕ) :
    ℕ → ℕ → (ℕ → ℕ) → Except String (ℕ → ℕ)
  | 0, _, acc => .ok acc
  | fuel + 1, i, acc =>
      if i < ts.length then do
        let acc ← autoInner ts window_size bin_size H nb i ts.length (i + 1) acc
        autoOuter ts window_size bin_size H nb fuel (i + 1) acc
      else .ok acc

/-- Embedding of `_compute_autocorr_numba(spike_times, window_size, bin_size)`. -/
def compute_autocorr_numba (ts : List ℤ) (window_size bin_size : ℤ) :
    Except String (ℕ → ℕ) :=
  autoOuter ts window_size bin_size (numHalfBins window_size bin_size)
    (numBins window_size bin_size) ts.length 0 (fun _ => 0)

/-- Inner loop of `_compute_crosscorr_numba`: `for j in range(start_j, n2)`
with `start_j += 1; continue` on `diff >= window_size`, `break` on
`diff < -window_size`, and one increment otherwise.  Returns the new
`start_j` together with the array. -/
def crossInner (t1 t2 : List ℤ) (window_size bin_size H : ℤ) (nb : ℕ) (i : ℕ) :
    ℕ → ℕ → ℕ → (ℕ → ℕ) → Except String (ℕ × (ℕ → ℕ))
  | 0, _, startj, acc => .ok (startj, acc)
  | fuel + 1, j, startj, acc =>
      if j < t2.length then
        let diff := getI t1 i - getI t2 j
        if window_size ≤ diff then
          crossInner t1 t2 window_size bin_size H nb i fuel (j + 1) (startj + 1) acc
        else if diff < -window_size then .ok (startj, acc)
        else do
          let acc ← arrBump nb acc (H + diff.fdiv bin_size)
          crossInner t1 t2 window_size bin_size H nb i fuel (j + 1) startj acc
      else .ok (startj, acc)

/-- Outer loop of `_compute_crosscorr_numba`: `for i in range(n1)`, threading
`start_j`. -/
def crossOuter (t1 t2 : List ℤ) (window_size bin_size H : ℤ) (nb : ℕ) :
    ℕ → ℕ → ℕ → (ℕ → ℕ) → Except String (ℕ → ℕ)
  | 0, _, _, acc => .ok acc
  | fuel + 1, i, startj, acc =>
      if i < t1.length then do
        let p ← crossInner t1 t2 window_size bin_size H nb i t2.length startj startj acc
        crossOuter t1 t2 window_size bin_size H nb fuel (i + 1) p.1 p.2
      else .ok acc

/-- Embedding of `_compute_crosscorr_numba(spike_times1, spike_times2,
window_size, bin_size)`. -/
def compute_crosscorr_numba (t1 t2 : List ℤ) (window_size bin_size : ℤ) :
    Except String (ℕ → ℕ) :=
  crossOuter t1 t2 window_size bin_size (numHalfBins window_size bin_size)
    (numBins window_size bin_size) t1.length 0 0 (fun _ => 0)

/-- `spike_times[spike_labels == i]`. -/
def spikesOfUnit (ts : List ℤ) (ls : List ℕ) (u : ℕ) : List ℤ :=
  (ls.zip ts).filterMap (fun x => if x.1 = u then some x.2 else none)

/-- `correlograms[x, y, :] += f` over the `num_bins` slice extent. -/
def sliceAdd (T : ℕ → ℕ → ℕ → ℕ) (x y : ℕ) (nb : ℕ) (f : ℕ → ℕ) : ℕ → ℕ → ℕ → ℕ :=
  fun a b k => if a = x ∧ b = y ∧ k < nb then T a b k + f k else T a b k

/-- `cc[::-1]` on a `num_bins`-vector. -/
def revArr (nb : ℕ) (f : ℕ → ℕ) : ℕ → ℕ := fun k => f (nb - 1 - k)

/-- Inner loop of `_compute_correlograms_numba`: `for j in range(i, n_units)`;
the diagonal adds the autocorrelogram, off-diagonal pairs add the
cross-correlogram and its bin-reversal at the mirrored entry. -/
def numbaJLoop (ts : List ℤ) (ls : List ℕ) (window_size bin_size : ℤ) (nb U : ℕ) (i : ℕ) :
    ℕ → ℕ → (ℕ → ℕ → ℕ → ℕ) → Except String (ℕ → ℕ → ℕ → ℕ)
  | 0, _, T => .ok T
  | fuel + 1, j, T =>
      if j < U then
        if i = j then do
          let ac ← compute_autocorr_numba (spikesOfUnit ts ls i) window_size bin_size
          numbaJLoop ts ls window_size bin_size nb U i fuel (j + 1) (sliceAdd T i i nb ac)
        else do
          let cc ← compute_crosscorr_numba (spikesOfUnit ts ls i) (spikesOfUnit ts ls j)
            window_size bin_size
          numbaJLoop ts ls window_size bin_size nb U i fuel (j + 1)
            (sliceAdd (sliceAdd T i j nb cc) j i nb (revArr nb cc))
      else .ok T

/-- Outer loop of `_compute_correlograms_numba`: `for i in numba.prange(n_units)`.
The parallel iterations write disjoint tensor slices (iteration `i` owns the
cells whose smaller unit index is `i`), so the sequential fold is equivalent. -/
def numbaILoop (ts : List ℤ) (ls : List ℕ) (window_size bin_size : ℤ) (nb U : ℕ) :
    ℕ → ℕ → (ℕ → ℕ → ℕ → ℕ) → Except String (ℕ → ℕ → ℕ → ℕ)
  | 0, _, T => .ok T
  | fuel + 1, i, T =>
      if i < U then do
        let T' ← numbaJLoop ts ls window_size bin_size nb U i U i T
        numbaILoop ts ls window_size bin_size nb U fuel (i + 1) T'
      else .ok T

/-- Embedding of `_compute_correlograms_numba(correlograms, spike_times,
spike_labels, window_size, bin_size)`; `n_units = correlograms.shape[0]`. -/
def compute_correlograms_numba_segment (T : NPTensor) (ts : List ℤ) (ls : List ℕ)
    (window_size bin_size : ℤ) : Except String NPTensor := do
  let v ← numbaILoop ts ls window_size bin_size T.bins T.units T.units 0 T.val
  .ok ⟨T.units, T.bins, v⟩

/-- Embedding of `compute_correlograms_numba(sorting, window_size, bin_size)`.
The Python function starts with `assert HAVE_NUMBA`; backend availability is
passed explicitly. -/
def compute_correlograms_numba (have_numba : Bool) (s : Sorting) (window_size bin_size : ℤ) :
    Except String NPTensor :=
  if have_numba then
    s.segments.foldlM
      (fun acc seg => compute_correlograms_numba_segment acc seg.1 seg.2 window_size bin_size)
      ⟨s.num_units, numBins window_size bin_size, fun _ _ _ => 0⟩
  else .error "AssertionError: numba version of this function requires installation of numba"

/-! ## Deprecated public spike-train helpers (argument arity)

`compute_autocorrelogram_from_spiketrain` and
`compute_crosscorrelogram_from_spiketrain` call
`_compute_correlograms_one_segment_numba`, a plain Python function of six
positional parameters `(correlograms, spike_times, spike_labels, window_size,
bin_size, num_half_bins)`, with three and four positional arguments
respectively.  Python checks positional arity before running the body and
raises `TypeError` on a mismatch; the check is embedded explicitly. -/

/-- A Python positional call: `nparams` from the `def`, `nargs` at the call
site; the body is only entered when they agree. -/
def pyCallArity (nparams nargs : ℕ) {α : Type} (body : α) : Except String α :=
  if nargs = nparams then .ok body
  else .error "TypeError: missing required positional arguments"

/-- Positional parameter count of `_compute_correlograms_one_segment_numba`. -/
def oneSegmentNumbaParamCount : ℕ := 6

/-- Embedding of `compute_autocorrelogram_from_spiketrain(spike_times,
window_size, bin_size)`: after `assert HAVE_NUMBA`, it forwards exactly three
positional arguments. -/
def compute_autocorrelogram_from_spiketrain (have_numba : Bool) (spike_times : List ℤ)
    (window_size bin_size : ℤ) : Except String Unit :=
  if have_numba then pyCallArity oneSegmentNumbaParamCount 3 ()
  else .error "AssertionError"

/-- Embedding of `compute_crosscorrelogram_from_spiketrain(spike_times1,
spike_times2, window_size, bin_size)`: after `assert HAVE_NUMBA`, it forwards
exactly four positional arguments. -/
def compute_crosscorrelogram_from_spiketrain (have_numba : Bool) (spike_times1 spike_times2 : List ℤ)
    (window_size bin_size : ℤ) : Except String Unit :=
  if have_numba then pyCallArity oneSegmentNumbaParamCount 4 ()
  else .error "AssertionError"

/-! ## Engine facade (`compute_correlograms_on_sorting`) -/

/-- Embedding of `compute_correlograms_on_sorting(sorting, window_ms, bin_ms,
method)`.  `method` is validated, `"auto"` resolves to `"numba"` exactly when
the backend is available, the geometry comes from `_make_bins`, and the
selected strategy runs. -/
def compute_correlograms_on_sorting (have_numba : Bool) (s : Sorting)
    (window_ms bin_ms : ℚ) (method : String) : Except String (NPTensor × List ℚ) :=
  if method = "auto" ∨ method = "numba" ∨ method = "numpy" then
    let method := if method = "auto" then (if have_numba then "numba" else "numpy") else method
    match makeBins s.sampling_frequency window_ms bin_ms with
    | .error e => .error e
    | .ok (bins, window_size, bin_size) =>
        if method = "numpy" then do
          let c ← compute_correlograms_numpy s window_size bin_size
          .ok (c, bins)
        else do
          let c ← compute_correlograms_numba have_numba s window_size bin_size
          .ok (c, bins)
  else .error "AssertionError: method must be auto, numba or numpy"

/-! ## Observation helpers and specification counts -/

/-- Whether an embedded Python computation completed without raising. -/
def exceptOk {α : Type} (r : Except String α) : Bool := r.toOption.isSome

/-- One tensor entry of a strategy result (`none` when the call raised). -/
def tensorEntry (r : Except String NPTensor) (a b k : ℕ) : Option ℕ :=
  r.toOption.map (fun T => T.val a b k)

/-- The shape of a strategy result. -/
def tensorShape (r : Except String NPTensor) : Option (ℕ × ℕ) :=
  r.toOption.map (fun T => (T.units, T.bins))

/-- One tensor entry of a facade result. -/
def resultEntry (r : Except String (NPTensor × List ℚ)) (a b k : ℕ) : Option ℕ :=
  r.toOption.map (fun x => x.1.val a b k)

/-- Sum of all entries of a `(units, units, bins)` tensor. -/
def tensorTotal (T : NPTensor) : ℕ :=
  ∑ a ∈ Finset.range T.units, ∑ b ∈ Finset.range T.units, ∑ k ∈ Finset.range T.bins, T.val a b k

/-- Sum of all entries of a facade result. -/
def resultTotal (r : Except String (NPTensor × List ℚ)) : Option ℕ :=
  r.toOption.map (fun x => tensorTotal x.1)

/-- Sum of all entries of a strategy result. -/
def tensorTotalE (r : Except String NPTensor) : Option ℕ :=
  r.toOption.map tensorTotal

/-- `spike_times[p] - spike_times[q]`: the signed lag of event `p` relative to
event `q`, read as the docstring reads `correlogram[A, B, :]`
("the histogram of spiketimesA - spiketimesB"). -/
def lagOf (ts : List ℤ) (p q : ℕ) : ℤ := getI ts p - getI ts q

/-- Specification count: the number of ordered event pairs `(p, q)` of one
segment, `p ≠ q`, whose labels are `(a, b')` and whose signed lag falls in
semi-open bin `k` of the window `[-W, W)`. -/
def pairCount (ts : List ℤ) (ls : List ℕ) (W b H : ℤ) (a b' k : ℕ) : ℕ :=
  ∑ p ∈ Finset.range ts.length, ∑ q ∈ Finset.range ts.length,
    if p ≠ q ∧ getL ls p = a ∧ getL ls q = b' ∧ -W ≤ lagOf ts p q ∧ lagOf ts p q < W ∧
        H + (lagOf ts p q).fdiv b = (k : ℤ) then 1 else 0

/-- The number of ordered event pairs `(p, q)` of one segment, `p ≠ q`, whose
signed lag lies strictly within `(-W, W]` (the conservation property's
boundary policy). -/
def orderedPairsInWindow (ts : List ℤ) (W : ℤ) : ℕ :=
  ∑ p ∈ Finset.range ts.length, ∑ q ∈ Finset.range ts.length,
    if p ≠ q ∧ -W < lagOf ts p q ∧ lagOf ts p q ≤ W then 1 else 0

/-! ## Validity hypotheses on segments -/

/-- The engine's precondition: events of a segment are time-ordered ascending. -/
def TimesSorted (ts : List ℤ) : Prop :=
  ∀ p q, p ≤ q → q < ts.length → getI ts p ≤ getI ts q

/-- Unit labels densely cover `0 .. num_units - 1`. -/
def LabelsDense (ls : List ℕ) (U : ℕ) : Prop := ls.toFinset = Finset.range U

/-- No two distinct events of the segment are exactly `window_size` samples
apart (in either direction). -/
def NoExactWindowPair (ts : List ℤ) (W : ℤ) : Prop :=
  ∀ p q, p < ts.length → q < ts.length → p ≠ q → getI ts p - getI ts q ≠ W

/-- No two events of the segment with distinct labels are separated, within
the window (`-W ≤ lag ≤ W`), by an exact multiple of `bin_size`. -/
def CrossLagsOffGrid (ts : List ℤ) (ls : List ℕ) (W b : ℤ) : Prop :=
  ∀ p q, p < ts.length → q < ts.length → getL ls p ≠ getL ls q →
    -W ≤ getI ts p - getI ts q → getI ts p - getI ts q ≤ W →
    ¬ b ∣ (getI ts p - getI ts q)

/-- No two distinct events of the segment (any labels) are separated, within
the window (`-W ≤ lag ≤ W`), by an exact multiple of `bin_size`.  This
excludes in particular tied spike times and pairs exactly `window_size`
apart (when `b ∣ W` and `0 ≤ W`). -/
def AllLagsOffGrid (ts : List ℤ) (W b : ℤ) : Prop :=
  ∀ p q, p < ts.length → q < ts.length → p ≠ q →
    -W ≤ getI ts p - getI ts q → getI ts p - getI ts q ≤ W →
    ¬ b ∣ (getI ts p - getI ts q)

instance (ts : List ℤ) : Decidable (TimesSorted ts) :=
  decidable_of_iff (∀ q, q < ts.length → ∀ p, p ≤ q → getI ts p ≤ getI ts q)
    ⟨fun h p q hpq hq => h q hq p hpq, fun h q hq p hpq => h p q hpq hq⟩

instance (ls : List ℕ) (U : ℕ) : Decidable (LabelsDense ls U) :=
  decidable_of_iff (ls.toFinset = Finset.range U) Iff.rfl

instance (ts : List ℤ) (W : ℤ) : Decidable (NoExactWindowPair ts W) :=
  decidable_of_iff
    (∀ p, p < ts.length → ∀ q, q < ts.length → p ≠ q → getI ts p - getI ts q ≠ W)
    ⟨fun h p q hp hq => h p hp q hq, fun h p hp q hq => h p q hp hq⟩

instance (ts : List ℤ) (ls : List ℕ) (W b : ℤ) : Decidable (CrossLagsOffGrid ts ls W b) :=
  decidable_of_iff
    (∀ p, p < ts.length → ∀ q, q < ts.length → getL ls p ≠ getL ls q →
      -W ≤ getI ts p - getI ts q → getI ts p - getI ts q ≤ W →
      ¬ b ∣ (getI ts p - getI ts q))
    ⟨fun h p q hp hq => h p hp q hq, fun h p hp q hq => h p q hp hq⟩

instance (ts : List ℤ) (W b : ℤ) : Decidable (AllLagsOffGrid ts W b) :=
  decidable_of_iff
    (∀ p, p < ts.length → ∀ q, q < ts.length → p ≠ q →
      -W ≤ getI ts p - getI ts q → getI ts p - getI ts q ≤ W →
      ¬ b ∣ (getI ts p - getI ts q))
    ⟨fun h p q hp hq => h p hp q hq, fun h p hp q hq => h p q hp hq⟩

/-! ## Proof-support specifications -/

/-- The semantic content of the numpy mask at the start of iteration `shift`:
spike `i` is still active iff no earlier shift paired it with a spike at or
beyond the window. -/
def maskSpec (ts : List ℤ) (W : ℤ) (shift i : ℕ) : Prop :=
  ∀ s', 1 ≤ s' → s' < shift → i + s' < ts.length → getI ts (i + s') - getI ts i < W

/-- `pairCount` restricted to ordered pairs whose index distance is at least
`s` (at `s = 1` this is exactly `pairCount`): the pairs the numpy while loop
has not yet visited at the start of iteration `s`. -/
def pairCountFrom (ts : List ℤ) (ls : List ℕ) (W b H : ℤ) (s : ℕ) (a b' k : ℕ) : ℕ :=
  ∑ p ∈ Finset.range ts.length, ∑ q ∈ Finset.range ts.length,
    if (p + s ≤ q ∨ q + s ≤ p) ∧ getL ls p = a ∧ getL ls q = b' ∧ -W ≤ lagOf ts p q ∧
        lagOf ts p q < W ∧ H + (lagOf ts p q).fdiv b = (k : ℤ) then 1 else 0

/-- Indicator: the ordered stream pair `(α, β)` of `(t1, t2)` lies in the
window and falls in bin `k`. -/
def crossInd (t1 t2 : List ℤ) (W b H : ℤ) (α β k : ℕ) : ℕ :=
  if -W ≤ getI t1 α - getI t2 β ∧ getI t1 α - getI t2 β < W ∧
      H + (getI t1 α - getI t2 β).fdiv b = (k : ℤ) then 1 else 0

/-- The ideal cross-correlogram of two spike trains: the number of stream
pairs in the window binned at `k`. -/
def crossSpec (t1 t2 : List ℤ) (W b H : ℤ) (k : ℕ) : ℕ :=
  ∑ α ∈ Finset.range t1.length, ∑ β ∈ Finset.range t2.length, crossInd t1 t2 W b H α β k

/-- The ideal autocorrelogram of one spike train: ordered pairs of distinct
stream indices in the window, binned at `k`. -/
def autoSpec (τ : List ℤ) (W b H : ℤ) (k : ℕ) : ℕ :=
  ∑ α ∈ Finset.range τ.length, ∑ β ∈ Finset.range τ.length,
    if α ≠ β then crossInd τ τ W b H α β k else 0

/-- The value the numba strategy adds to cell `(a, b', k)` of the tensor for
one segment: the autocorrelogram on the diagonal, the cross-correlogram above
it, and the bin-reversed cross-correlogram below it. -/
def numbaCell (ts : List ℤ) (ls : List ℕ) (W b H : ℤ) (nb : ℕ) (a b' k : ℕ) : ℕ :=
  if a = b' then autoSpec (spikesOfUnit ts ls a) W b H k
  else if a < b' then crossSpec (spikesOfUnit ts ls a) (spikesOfUnit ts ls b') W b H k
  else crossSpec (spikesOfUnit ts ls b') (spikesOfUnit ts ls a) W b H (nb - 1 - k)

/-- Contribution of inner-loop iteration `(i, j)` of
`_compute_correlograms_numba` to cell `(a, b', k)`. -/
def cellContrib (ts : List ℤ) (ls : List ℕ) (W b H : ℤ) (nb : ℕ) (i j a b' k : ℕ) : ℕ :=
  if i = j then
    (if a = i ∧ b' = i ∧ k < nb then autoSpec (spikesOfUnit ts ls i) W b H k else 0)
  else
    (if a = i ∧ b' = j ∧ k < nb then
      crossSpec (spikesOfUnit ts ls i) (spikesOfUnit ts ls j) W b H k else 0) +
    (if a = j ∧ b' = i ∧ k < nb then
      crossSpec (spikesOfUnit ts ls i) (spikesOfUnit ts ls j) W b H (nb - 1 - k) else 0)

/-! # Theorems -/

/-! ## Integer floor-division helpers -/

theorem fdiv_eq_ediv' (a : ℤ) {b : ℤ} (hb : 0 < b) : a.fdiv b = a / b :=
  Int.fdiv_eq_ediv a hb.le

theorem fdiv_lt_iff {a b c : ℤ} (hb : 0 < b) : a.fdiv b < c ↔ a < c * b := by
  rw [fdiv_eq_ediv' a hb, Int.ediv_lt_iff_lt_mul hb]

theorem le_fdiv_iff {a b c : ℤ} (hb : 0 < b) : c ≤ a.fdiv b ↔ c * b ≤ a := by
  rw [fdiv_eq_ediv' a hb, Int.le_ediv_iff_mul_le hb]

theorem fdiv_le_fdiv {a a' b : ℤ} (hb : 0 < b) (h : a ≤ a') : a.fdiv b ≤ a'.fdiv b := by
  rw [fdiv_eq_ediv' a hb, fdiv_eq_ediv' a' hb]
  exact Int.ediv_le_ediv hb h

theorem mul_fdiv_cancel' {b : ℤ} (hb : b ≠ 0) (H : ℤ) : (H * b).fdiv b = H := by
  rw [Int.mul_fdiv_cancel _ hb]

theorem fdiv_neg_of_not_dvd {x b : ℤ} (hb : 0 < b) (hnd : ¬ b ∣ x) :
    (-x).fdiv b = -(x.fdiv b) - 1 := by
  rw [fdiv_eq_ediv' _ hb, fdiv_eq_ediv' _ hb]
  have hself : b * (x / b) + x % b = x := Int.ediv_add_emod x b
  have hlt : x % b < b := Int.emod_lt_of_pos x hb
  have hge : 0 < x % b := by
    rcases lt_or_eq_of_le (Int.emod_nonneg x hb.ne' : 0 ≤ x % b) with h | h
    · exact h
    · exact absurd (Int.dvd_of_emod_eq_zero h.symm) hnd
  have key : -x = (b - x % b) + b * (-(x / b) - 1) := by linarith
  have h0 : 0 ≤ b - x % b := by linarith
  have h1 : b - x % b < b := by linarith
  rw [key, Int.add_mul_ediv_left _ _ hb.ne', Int.ediv_eq_zero_of_lt h0 h1]
  ring

theorem fdiv_neg_of_dvd {x b : ℤ} (hb : b ≠ 0) (hd : b ∣ x) :
    (-x).fdiv b = -(x.fdiv b) := by
  obtain ⟨k, rfl⟩ := hd
  rw [mul_comm, mul_fdiv_cancel' hb, ← neg_mul, mul_fdiv_cancel' hb]

/-! ## Window and bin-index arithmetic -/

theorem numHalfBins_mul {W b : ℤ} (hb : 0 < b) (hWb : b ∣ W) :
    W = numHalfBins W b * b := by
  obtain ⟨k, rfl⟩ := hWb
  unfold numHalfBins
  rw [mul_comm b k, mul_fdiv_cancel' hb.ne' k]

theorem numHalfBins_nonneg {W b : ℤ} (hb : 0 < b) (hW0 : 0 ≤ W) :
    0 ≤ numHalfBins W b := by
  unfold numHalfBins
  rw [le_fdiv_iff hb]
  simpa using hW0

/-- The `sign = -1` numpy masking condition `(diff * -1) // bin_size < -H`
says exactly `window_size < diff`. -/
theorem neg_mask_cond {W H b : ℤ} (hb : 0 < b) (hHW : W = H * b) (d : ℤ) :
    (d * (-1)).fdiv b < -H ↔ W < d := by
  rw [show d * (-1) = -d by ring, fdiv_lt_iff hb, hHW]
  constructor <;> intro h <;> nlinarith

/-- The `sign = 1` numpy masking condition `diff // bin_size >= H` says
exactly `window_size ≤ diff`. -/
theorem pos_mask_cond {W H b : ℤ} (hb : 0 < b) (hHW : W = H * b) (d : ℤ) :
    H ≤ d.fdiv b ↔ W ≤ d := by
  rw [le_fdiv_iff hb, hHW]

theorem bin_lower {W H b : ℤ} (hb : 0 < b) (hHW : W = H * b) {lag : ℤ} (h : -W ≤ lag) :
    0 ≤ H + lag.fdiv b := by
  have h1 : (-W).fdiv b = -H := by
    rw [hHW, show -(H * b) = (-H) * b by ring, mul_fdiv_cancel' hb.ne']
  have := fdiv_le_fdiv hb h
  omega

theorem bin_upper {W H b : ℤ} (hb : 0 < b) (hHW : W = H * b) {lag : ℤ} (h : lag < W) :
    H + lag.fdiv b < 2 * H := by
  have h1 : (W - 1).fdiv b = H - 1 := by
    have harg : W - 1 = (b - 1) + b * (H - 1) := by rw [hHW]; ring
    rw [harg, fdiv_eq_ediv' _ hb, Int.add_mul_ediv_left _ _ hb.ne',
      Int.ediv_eq_zero_of_lt (by omega) (by omega)]
    omega
  have := fdiv_le_fdiv hb (show lag ≤ W - 1 by omega)
  omega

/-- Floor division buckets a non-multiple lag and its negation into mirrored
bins: `H + (-lag) // b = (2H - 1) - (H + lag // b)`. -/
theorem bin_mirror_of_not_dvd {H b : ℤ} (hb : 0 < b) {lag : ℤ} (hnd : ¬ b ∣ lag) :
    H + (-lag).fdiv b = 2 * H - 1 - (H + lag.fdiv b) := by
  rw [fdiv_neg_of_not_dvd hb hnd]
  ring

/-! ## Generic finite-sum lemmas -/

theorem sum_range_getD {β : Type} (l : List β) (d : β) (f : β → ℕ) :
    ∑ i ∈ Finset.range l.length, f (l.getD i d) = (l.map f).sum := by
  induction l with
  | nil => simp
  | cons x xs ih =>
      rw [List.length_cons, Finset.sum_range_succ']
      simp only [List.getD_cons_succ, List.getD_cons_zero, List.map_cons, List.sum_cons, ih]
      omega

theorem sum_offdiag (n : ℕ) (F : ℕ → ℕ → ℕ) :
    (∑ p ∈ Finset.range n, ∑ q ∈ Finset.range n, if p ≠ q then F p q else 0)
    = ∑ p ∈ Finset.range n, ∑ q ∈ Finset.Ico (p + 1) n, (F p q + F q p) := by
  induction n with
  | zero => simp
  | succ n ih =>
      have hL : (∑ p ∈ Finset.range (n + 1), ∑ q ∈ Finset.range (n + 1),
            if p ≠ q then F p q else 0)
          = (∑ p ∈ Finset.range n, ∑ q ∈ Finset.range n, if p ≠ q then F p q else 0)
            + ((∑ p ∈ Finset.range n, F p n) + ∑ q ∈ Finset.range n, F n q) := by
        rw [Finset.sum_range_succ]
        have e1 : ∀ p ∈ Finset.range n,
            (∑ q ∈ Finset.range (n + 1), if p ≠ q then F p q else 0)
            = (∑ q ∈ Finset.range n, if p ≠ q then F p q else 0) + F p n := by
          intro p hp
          simp only [Finset.mem_range] at hp
          rw [Finset.sum_range_succ, if_pos (by omega)]
        have e2 : (∑ q ∈ Finset.range (n + 1), if n ≠ q then F n q else 0)
            = ∑ q ∈ Finset.range n, F n q := by
          rw [Finset.sum_range_succ, if_neg (by omega), add_zero]
          refine Finset.sum_congr rfl (fun q hq => ?_)
          simp only [Finset.mem_range] at hq
          rw [if_pos (by omega)]
        rw [Finset.sum_congr rfl e1, Finset.sum_add_distrib, e2]
        omega
      have hR : (∑ p ∈ Finset.range (n + 1), ∑ q ∈ Finset.Ico (p + 1) (n + 1), (F p q + F q p))
          = (∑ p ∈ Finset.range n, ∑ q ∈ Finset.Ico (p + 1) n, (F p q + F q p))
            + ∑ p ∈ Finset.range n, (F p n + F n p) := by
        rw [Finset.sum_range_succ]
        have e3 : ∀ p ∈ Finset.range n,
            (∑ q ∈ Finset.Ico (p + 1) (n + 1), (F p q + F q p))
            = (∑ q ∈ Finset.Ico (p + 1) n, (F p q + F q p)) + (F p n + F n p) := by
          intro p hp
          simp only [Finset.mem_range] at hp
          rw [Finset.sum_Ico_succ_top (by omega)]
        rw [Finset.sum_congr rfl e3, Finset.sum_add_distrib, Finset.Ico_self,
          Finset.sum_empty, add_zero]
      rw [hL, hR, ih, Finset.sum_add_distrib]

/-! ## Evaluation of the numpy bulk increments -/

theorem bumpZ_eval (T : ℕ → ℕ → ℕ → ℕ) (x y : ℕ) (z : ℤ) (a b k : ℕ) :
    bumpZ T x y z a b k = T a b k + if a = x ∧ b = y ∧ (k : ℤ) = z then 1 else 0 := by
  unfold bumpZ
  split <;> simp

theorem foldl_bump_eval (M : ℕ) (f : ℕ → Bool) (x y : ℕ → ℕ) (z : ℕ → ℤ)
    (T : ℕ → ℕ → ℕ → ℕ) (a b k : ℕ) :
    ((List.range M).foldl (fun acc i => if f i then bumpZ acc (x i) (y i) (z i) else acc) T) a b k
    = T a b k + ∑ i ∈ Finset.range M,
        if f i = true ∧ a = x i ∧ b = y i ∧ (k : ℤ) = z i then 1 else 0 := by
  induction M generalizing T with
  | zero => simp
  | succ M ih =>
      rw [List.range_succ, List.foldl_append, Finset.sum_range_succ]
      simp only [List.foldl_cons, List.foldl_nil]
      by_cases hf : f M = true
      · rw [if_pos hf, bumpZ_eval, ih]
        simp only [hf, true_and]
        omega
      · rw [if_neg hf, ih]
        simp [hf]

theorem countNeg_eval (ts : List ℤ) (ls : List ℕ) (b H : ℤ) (s : ℕ) (m : ℕ → Bool)
    (T : ℕ → ℕ → ℕ → ℕ) (a b' k : ℕ) :
    countNeg ts ls b H s m T a b' k = T a b' k + ∑ i ∈ Finset.range (ts.length - s),
      if m i = true ∧ a = getL ls i ∧ b' = getL ls (i + s) ∧
          (k : ℤ) = (spikeDiff ts s i * (-1)).fdiv b + H then 1 else 0 := by
  unfold countNeg
  exact foldl_bump_eval (ts.length - s) m _ _ _ T a b' k

theorem countPos_eval (ts : List ℤ) (ls : List ℕ) (b H : ℤ) (s : ℕ) (m : ℕ → Bool)
    (T : ℕ → ℕ → ℕ → ℕ) (a b' k : ℕ) :
    countPos ts ls b H s m T a b' k = T a b' k + ∑ i ∈ Finset.range (ts.length - s),
      if m i = true ∧ a = getL ls (i + s) ∧ b' = getL ls i ∧
          (k : ℤ) = (spikeDiff ts s i).fdiv b + H then 1 else 0 := by
  unfold countPos
  exact foldl_bump_eval (ts.length - s) m _ _ _ T a b' k

theorem npShiftStep_fst (ts : List ℤ) (ls : List ℕ) (b H : ℤ) (s : ℕ) (mask : ℕ → Bool)
    (T : ℕ → ℕ → ℕ → ℕ) :
    (npShiftStep ts ls b H s mask T).1 = maskPosUpd ts b H s (maskNegUpd ts b H s mask) := rfl

theorem npShiftStep_snd (ts : List ℤ) (ls : List ℕ) (b H : ℤ) (s : ℕ) (mask : ℕ → Bool)
    (T : ℕ → ℕ → ℕ → ℕ) :
    (npShiftStep ts ls b H s mask T).2 =
      countPos ts ls b H s (maskPosUpd ts b H s (maskNegUpd ts b H s mask))
        (countNeg ts ls b H s (maskNegUpd ts b H s mask) T) := rfl

/-! ## The numpy mask invariant -/

theorem spikeDiff_nonneg {ts : List ℤ} (hsort : TimesSorted ts) {s i : ℕ}
    (h : i + s < ts.length) : 0 ≤ spikeDiff ts s i := by
  have := hsort i (i + s) (by omega) h
  unfold spikeDiff
  omega

theorem spikeDiff_ne_W {ts : List ℤ} {W : ℤ} (hnW : NoExactWindowPair ts W) {s i : ℕ}
    (hs : 1 ≤ s) (h : i + s < ts.length) : spikeDiff ts s i ≠ W := by
  have := hnW (i + s) i h (by omega) (by omega)
  unfold spikeDiff
  unfold lagOf at *
  omega

/-- Reading the mask after the `sign = -1` update: under the invariant, spike
`i < N - s` is active exactly when its shift-`s` partner is inside the window. -/
theorem mask1_read {ts : List ℤ} {W b H : ℤ} (hb : 0 < b) (hHW : W = H * b)
    (hsort : TimesSorted ts) (hnW : NoExactWindowPair ts W) {s : ℕ} (hs : 1 ≤ s)
    (mask : ℕ → Bool) (hInv : ∀ i < ts.length, (mask i = true ↔ maskSpec ts W s i)) :
    ∀ i < ts.length - s, (maskNegUpd ts b H s mask i = true ↔ spikeDiff ts s i < W) := by
  intro i hi
  have hisN : i + s < ts.length := by omega
  unfold maskNegUpd
  by_cases hc : (spikeDiff ts s i * (-1)).fdiv b < -H
  · rw [if_pos ⟨hi, hc⟩]
    rw [neg_mask_cond hb hHW] at hc
    simp only [Bool.false_eq_true, false_iff]
    omega
  · rw [if_neg (by tauto)]
    rw [neg_mask_cond hb hHW] at hc
    have hdW : spikeDiff ts s i < W := by
      have := spikeDiff_ne_W hnW hs hisN
      omega
    rw [hInv i (by omega)]
    constructor
    · intro _
      exact hdW
    · intro _
      intro s' h1 h2 h3
      have hmono := hsort (i + s') (i + s) (by omega) hisN
      unfold spikeDiff at hdW
      omega

/-- Reading the mask after both sign updates. -/
theorem mask2_read {ts : List ℤ} {W b H : ℤ} (hb : 0 < b) (hHW : W = H * b)
    (hsort : TimesSorted ts) (hnW : NoExactWindowPair ts W) {s : ℕ} (hs : 1 ≤ s)
    (mask : ℕ → Bool) (hInv : ∀ i < ts.length, (mask i = true ↔ maskSpec ts W s i)) :
    ∀ i < ts.length - s,
      (maskPosUpd ts b H s (maskNegUpd ts b H s mask) i = true ↔ spikeDiff ts s i < W) := by
  intro i hi
  unfold maskPosUpd
  by_cases hc : H ≤ (spikeDiff ts s i).fdiv b
  · rw [if_pos ⟨hi, hc⟩]
    rw [pos_mask_cond hb hHW] at hc
    simp only [Bool.false_eq_true, false_iff]
    omega
  · rw [if_neg (by tauto)]
    exact mask1_read hb hHW hsort hnW hs mask hInv i hi

/-- The invariant is restored for the next shift. -/
theorem mask2_inv {ts : List ℤ} {W b H : ℤ} (hb : 0 < b) (hHW : W = H * b)
    (hsort : TimesSorted ts) (hnW : NoExactWindowPair ts W) {s : ℕ} (hs : 1 ≤ s)
    (mask : ℕ → Bool) (hInv : ∀ i < ts.length, (mask i = true ↔ maskSpec ts W s i)) :
    ∀ i < ts.length,
      (maskPosUpd ts b H s (maskNegUpd ts b H s mask) i = true ↔ maskSpec ts W (s + 1) i) := by
  intro i hiN
  by_cases hi : i < ts.length - s
  · rw [mask2_read hb hHW hsort hnW hs mask hInv i hi]
    have hisN : i + s < ts.length := by omega
    constructor
    · intro hd s' h1 h2 h3
      have hmono := hsort (i + s') (i + s) (by omega) hisN
      unfold spikeDiff at hd
      omega
    · intro hms
      exact hms s hs (by omega) hisN
  · have h1 : maskPosUpd ts b H s (maskNegUpd ts b H s mask) i = mask i := by
      unfold maskPosUpd maskNegUpd
      rw [if_neg (by tauto), if_neg (by tauto)]
    rw [h1, hInv i hiN]
    constructor
    · intro hms s' ha hb' hc
      rcases Nat.lt_or_ge s' s with h | h
      · exact hms s' ha h hc
      · omega
    · intro hms s' ha hb' hc
      exact hms s' ha (by omega) hc

/-- When the while guard is false every unvisited pair is outside the window. -/
theorem pairCountFrom_zero {ts : List ℤ} {ls : List ℕ} {W b H : ℤ}
    (hsort : TimesSorted ts) (hnW : NoExactWindowPair ts W) {s : ℕ} (hs : 1 ≤ s)
    (mask : ℕ → Bool) (hInv : ∀ i < ts.length, (mask i = true ↔ maskSpec ts W s i))
    (hguard : ¬ (List.range (ts.length - s)).any (fun i => mask i) = true) (a b' k : ℕ) :
    pairCountFrom ts ls W b H s a b' k = 0 := by
  have hfalse : ∀ i < ts.length - s, mask i = false := by
    intro i hi
    rcases Bool.eq_false_or_eq_true (mask i) with h | h
    · exact absurd (List.any_eq_true.2 ⟨i, List.mem_range.2 hi, h⟩) hguard
    · exact h
  have hnospec : ∀ i < ts.length - s, ¬ maskSpec ts W s i := by
    intro i hi hspec
    have := (hInv i (by omega)).2 hspec
    rw [hfalse i hi] at this
    exact absurd this (by simp)
  unfold pairCountFrom
  refine Finset.sum_eq_zero (fun p hp => Finset.sum_eq_zero (fun q hq => ?_))
  simp only [Finset.mem_range] at hp hq
  rw [if_neg]
  rintro ⟨hdist, -, -, hlow, hhigh, -⟩
  have hexceed : ∀ i j : ℕ, i + s ≤ j → j < ts.length → W < getI ts j - getI ts i := by
    intro i j hij hjN
    have hiNs : i < ts.length - s := by omega
    have := hnospec i hiNs
    unfold maskSpec at this
    push_neg at this
    obtain ⟨s', h1, h2, h3, h4⟩ := this
    have hmono := hsort (i + s') j (by omega) hjN
    have hne := hnW j i hjN (by omega) (by omega)
    unfold lagOf at hne
    omega
  unfold lagOf at hlow hhigh
  rcases hdist with h | h
  · have := hexceed p q h hq
    omega
  · have := hexceed q p h hp
    omega

/-- Indicator splitting along a disjoint three-way disjunction. -/
theorem ite_or3_disjoint {A1 A2 A3 C : Prop} [Decidable A1] [Decidable A2] [Decidable A3]
    [Decidable C] (h12 : ¬ (A1 ∧ A2)) (h13 : ¬ (A1 ∧ A3)) (h23 : ¬ (A2 ∧ A3)) :
    (if (A1 ∨ A2 ∨ A3) ∧ C then (1 : ℕ) else 0)
    = (if A1 ∧ C then 1 else 0) + ((if A2 ∧ C then 1 else 0) + (if A3 ∧ C then 1 else 0)) := by
  by_cases hc : C
  · by_cases h1 : A1 <;> by_cases h2 : A2 <;> by_cases h3 : A3 <;> simp_all
  · simp [hc]

/-- Collapse of a sum over one fixed partner index. -/
theorem sum_partner_collapse (N s : ℕ) (C : ℕ → ℕ → Prop) [∀ p q, Decidable (C p q)] :
    (∑ p ∈ Finset.range N, ∑ q ∈ Finset.range N, if q = p + s ∧ C p q then (1 : ℕ) else 0)
    = ∑ i ∈ Finset.range (N - s), if C i (i + s) then 1 else 0 := by
  have collapse : ∀ p ∈ Finset.range N,
      (∑ q ∈ Finset.range N, if q = p + s ∧ C p q then (1 : ℕ) else 0)
      = if p + s < N then (if C p (p + s) then 1 else 0) else 0 := by
    intro p _
    rw [Finset.sum_congr rfl (fun q _ => ite_and (q = p + s) (C p q) (1 : ℕ) 0)]
    rw [Finset.sum_ite_eq' (Finset.range N) (p + s) (fun q => if C p q then (1 : ℕ) else 0)]
    simp [Finset.mem_range]
  rw [Finset.sum_congr rfl collapse]
  rw [← Finset.sum_subset (Finset.range_subset.2 (Nat.sub_le N s))
    (fun p _ hp => by
      simp only [Finset.mem_range] at hp
      rw [if_neg (by omega)])]
  refine Finset.sum_congr rfl (fun i hi => ?_)
  simp only [Finset.mem_range] at hi
  rw [if_pos (by omega)]

/-- Splitting the unvisited pairs at index distance exactly `s`. -/
theorem pairCountFrom_succ {ts : List ℤ} {ls : List ℕ} {W b H : ℤ} (hb : 0 < b)
    (hW0 : 0 ≤ W) (hsort : TimesSorted ts) (hnW : NoExactWindowPair ts W) {s : ℕ}
    (hs : 1 ≤ s) (a b' k : ℕ) :
    pairCountFrom ts ls W b H s a b' k
    = pairCountFrom ts ls W b H (s + 1) a b' k
      + ((∑ i ∈ Finset.range (ts.length - s),
          if spikeDiff ts s i < W ∧ a = getL ls i ∧ b' = getL ls (i + s) ∧
              (k : ℤ) = (spikeDiff ts s i * (-1)).fdiv b + H then 1 else 0)
        + ∑ i ∈ Finset.range (ts.length - s),
          if spikeDiff ts s i < W ∧ a = getL ls (i + s) ∧ b' = getL ls i ∧
              (k : ℤ) = (spikeDiff ts s i).fdiv b + H then 1 else 0) := by
  classical
  have hsplit : ∀ p ∈ Finset.range ts.length, ∀ q ∈ Finset.range ts.length,
      (if (p + s ≤ q ∨ q + s ≤ p) ∧ (getL ls p = a ∧ getL ls q = b' ∧ -W ≤ lagOf ts p q ∧
          lagOf ts p q < W ∧ H + (lagOf ts p q).fdiv b = (k : ℤ)) then (1 : ℕ) else 0)
      = (if (p + (s + 1) ≤ q ∨ q + (s + 1) ≤ p) ∧ (getL ls p = a ∧ getL ls q = b' ∧
            -W ≤ lagOf ts p q ∧ lagOf ts p q < W ∧ H + (lagOf ts p q).fdiv b = (k : ℤ))
          then 1 else 0)
        + ((if q = p + s ∧ (getL ls p = a ∧ getL ls q = b' ∧ -W ≤ lagOf ts p q ∧
            lagOf ts p q < W ∧ H + (lagOf ts p q).fdiv b = (k : ℤ)) then 1 else 0)
          + (if p = q + s ∧ (getL ls p = a ∧ getL ls q = b' ∧ -W ≤ lagOf ts p q ∧
            lagOf ts p q < W ∧ H + (lagOf ts p q).fdiv b = (k : ℤ)) then 1 else 0)) := by
    intro p _ q _
    rw [if_congr (and_congr_left' (show (p + s ≤ q ∨ q + s ≤ p) ↔
      ((p + (s + 1) ≤ q ∨ q + (s + 1) ≤ p) ∨ q = p + s ∨ p = q + s) by omega)) rfl rfl]
    exact ite_or3_disjoint (by omega) (by omega) (by omega)
  unfold pairCountFrom
  rw [Finset.sum_congr rfl (fun p hp => Finset.sum_congr rfl (fun q hq => hsplit p hp q hq))]
  simp only [Finset.sum_add_distrib]
  congr 1
  congr 1
  · -- pairs (i, i + s): the sign = -1 increments
    rw [sum_partner_collapse ts.length s (fun p q => getL ls p = a ∧ getL ls q = b' ∧
      -W ≤ lagOf ts p q ∧ lagOf ts p q < W ∧ H + (lagOf ts p q).fdiv b = (k : ℤ))]
    refine Finset.sum_congr rfl (fun i hi => ?_)
    simp only [Finset.mem_range] at hi
    have hisN : i + s < ts.length := by omega
    have hd0 : 0 ≤ spikeDiff ts s i := spikeDiff_nonneg hsort hisN
    have hdW : spikeDiff ts s i ≠ W := spikeDiff_ne_W hnW hs hisN
    have hlag : lagOf ts i (i + s) = -(spikeDiff ts s i) := by
      unfold lagOf spikeDiff
      ring
    have hz : (spikeDiff ts s i * (-1)) = -(spikeDiff ts s i) := by ring
    refine if_congr ?_ rfl rfl
    rw [hlag, hz]
    constructor
    · rintro ⟨h1, h2, h3, h4, h5⟩
      exact ⟨by omega, h1.symm, h2.symm, by omega⟩
    · rintro ⟨h1, h2, h3, h4⟩
      exact ⟨h2.symm, h3.symm, by omega, by omega, by omega⟩
  · -- pairs (i + s, i): the sign = 1 increments
    rw [Finset.sum_comm]
    rw [sum_partner_collapse ts.length s (fun q p => getL ls p = a ∧ getL ls q = b' ∧
      -W ≤ lagOf ts p q ∧ lagOf ts p q < W ∧ H + (lagOf ts p q).fdiv b = (k : ℤ))]
    refine Finset.sum_congr rfl (fun i hi => ?_)
    simp only [Finset.mem_range] at hi
    have hisN : i + s < ts.length := by omega
    have hd0 : 0 ≤ spikeDiff ts s i := spikeDiff_nonneg hsort hisN
    have hlag : lagOf ts (i + s) i = spikeDiff ts s i := by
      unfold lagOf spikeDiff
      ring
    refine if_congr ?_ rfl rfl
    rw [hlag]
    constructor
    · rintro ⟨h1, h2, h3, h4, h5⟩
      exact ⟨h4, h1.symm, h2.symm, by omega⟩
    · rintro ⟨h1, h2, h3, h4⟩
      exact ⟨h2.symm, h3.symm, by omega, h1, by omega⟩

/-- Main characterization of the numpy while loop: starting at shift `s` with
a mask satisfying the invariant and enough fuel, the loop adds exactly the
ideal counts of the pairs at index distance `≥ s`. -/
theorem npLoop_char {ts : List ℤ} {ls : List ℕ} {W b H : ℤ} (hb : 0 < b) (hHW : W = H * b)
    (hW0 : 0 ≤ W) (hsort : TimesSorted ts) (hnW : NoExactWindowPair ts W) :
    ∀ (fuel s : ℕ) (mask : ℕ → Bool) (T : ℕ → ℕ → ℕ → ℕ) (a b' k : ℕ), 1 ≤ s →
      ts.length ≤ fuel + s →
      (∀ i < ts.length, (mask i = true ↔ maskSpec ts W s i)) →
      npLoop ts ls b H fuel s mask T a b' k = T a b' k + pairCountFrom ts ls W b H s a b' k := by
  intro fuel
  induction fuel with
  | zero =>
      intro s mask T a b' k hs hfuel hInv
      simp only [npLoop]
      have : pairCountFrom ts ls W b H s a b' k = 0 := by
        unfold pairCountFrom
        refine Finset.sum_eq_zero (fun p hp => Finset.sum_eq_zero (fun q hq => ?_))
        simp only [Finset.mem_range] at hp hq
        rw [if_neg]
        rintro ⟨hdist, -⟩
        omega
      omega
  | succ fuel ih =>
      intro s mask T a b' k hs hfuel hInv
      simp only [npLoop]
      by_cases hg : (List.range (ts.length - s)).any (fun i => mask i) = true
      · rw [if_pos hg]
        show npLoop ts ls b H fuel (s + 1) (npShiftStep ts ls b H s mask T).1
          (npShiftStep ts ls b H s mask T).2 a b' k = _
        rw [npShiftStep_fst, npShiftStep_snd]
        rw [ih (s + 1) _ _ a b' k (by omega) (by omega)
          (mask2_inv hb hHW hsort hnW hs mask hInv)]
        rw [countPos_eval, countNeg_eval]
        have hneg : (∑ i ∈ Finset.range (ts.length - s),
            if maskNegUpd ts b H s mask i = true ∧ a = getL ls i ∧ b' = getL ls (i + s) ∧
                (k : ℤ) = (spikeDiff ts s i * (-1)).fdiv b + H then 1 else 0)
            = ∑ i ∈ Finset.range (ts.length - s),
              if spikeDiff ts s i < W ∧ a = getL ls i ∧ b' = getL ls (i + s) ∧
                  (k : ℤ) = (spikeDiff ts s i * (-1)).fdiv b + H then 1 else 0 := by
          refine Finset.sum_congr rfl (fun i hi => ?_)
          simp only [Finset.mem_range] at hi
          refine if_congr (and_congr_left' ?_) rfl rfl
          exact mask1_read hb hHW hsort hnW hs mask hInv i hi
        have hpos : (∑ i ∈ Finset.range (ts.length - s),
            if maskPosUpd ts b H s (maskNegUpd ts b H s mask) i = true ∧
                a = getL ls (i + s) ∧ b' = getL ls i ∧
                (k : ℤ) = (spikeDiff ts s i).fdiv b + H then 1 else 0)
            = ∑ i ∈ Finset.range (ts.length - s),
              if spikeDiff ts s i < W ∧ a = getL ls (i + s) ∧ b' = getL ls i ∧
                  (k : ℤ) = (spikeDiff ts s i).fdiv b + H then 1 else 0 := by
          refine Finset.sum_congr rfl (fun i hi => ?_)
          simp only [Finset.mem_range] at hi
          refine if_congr (and_congr_left' ?_) rfl rfl
          exact mask2_read hb hHW hsort hnW hs mask hInv i hi
        rw [hneg, hpos, pairCountFrom_succ hb hW0 hsort hnW hs a b' k]
        omega
      · rw [if_neg hg]
        rw [pairCountFrom_zero hsort hnW hs mask hInv hg a b' k]
        omega

/-- At shift 1 the unvisited pairs are exactly all ordered pairs. -/
theorem pairCountFrom_one (ts : List ℤ) (ls : List ℕ) (W b H : ℤ) (a b' k : ℕ) :
    pairCountFrom ts ls W b H 1 a b' k = pairCount ts ls W b H a b' k := by
  unfold pairCountFrom pairCount
  refine Finset.sum_congr rfl (fun p _ => Finset.sum_congr rfl (fun q _ => ?_))
  refine if_congr (and_congr_left' ?_) rfl rfl
  omega

/-- Characterization of the vectorized one-segment kernel: on a time-ordered
segment with no pair exactly `window_size` apart (and a window that is a
multiple of the bin), every tensor entry is the ideal semi-open-bin pair
count. -/
theorem correlogram_for_one_segment_char {ts : List ℤ} {ls : List ℕ} {W b : ℤ}
    (hb : 0 < b) (hWb : b ∣ W) (hW0 : 0 ≤ W) (hsort : TimesSorted ts)
    (hnW : NoExactWindowPair ts W) (a b' k : ℕ) :
    (correlogram_for_one_segment ts ls W b).val a b' k
    = pairCount ts ls W b (numHalfBins W b) a b' k := by
  unfold correlogram_for_one_segment
  show npLoop ts ls b (numHalfBins W b) ts.length 1 (fun _ => true) (fun _ _ _ => 0) a b' k = _
  rw [npLoop_char hb (numHalfBins_mul hb hWb) hW0 hsort hnW ts.length 1 _ _ a b' k
    (by omega) (by omega) ?_]
  · rw [pairCountFrom_one]
    omega
  · intro i _
    simp only [true_iff]
    intro s' h1 h2 h3
    omega

/-! ## Characterization of the numba kernels -/

theorem exceptBind_ok {α β : Type} (a : α) (f : α → Except String β) :
    (Except.ok a >>= f) = f a := rfl

theorem arrBump_ok {nb : ℕ} (f : ℕ → ℕ) {z : ℤ} (h0 : 0 ≤ z) (h1 : z < (nb : ℤ)) :
    arrBump nb f z = .ok (fun k => if (k : ℤ) = z then f k + 1 else f k) := by
  unfold arrBump
  rw [if_pos ⟨h0, h1⟩]

theorem arrBump_fun_eval (f : ℕ → ℕ) (z : ℤ) (k : ℕ) :
    (if (k : ℤ) = z then f k + 1 else f k) = f k + (if (k : ℤ) = z then 1 else 0) := by
  split_ifs <;> omega

/-- Characterization of the inner loop of `_compute_autocorr_numba`: scanning
unit spikes after index `i`, it counts exactly the in-window partners, in both
bin directions, and never writes out of bounds. -/
theorem autoInner_char {τ : List ℤ} {W b H : ℤ} {nb : ℕ} (hb : 0 < b) (hHW : W = H * b)
    (hH1 : 1 ≤ H) (hnb : (nb : ℤ) = 2 * H) (hsort : TimesSorted τ)
    (hnW : NoExactWindowPair τ W) (i : ℕ) (hi : i < τ.length) :
    ∀ (fuel j : ℕ) (acc : ℕ → ℕ), i < j → τ.length ≤ fuel + j →
      autoInner τ W b H nb i fuel j acc = .ok (fun k => acc k
        + ∑ β ∈ Finset.Ico j τ.length,
            (crossInd τ τ W b H β i k + crossInd τ τ W b H i β k)) := by
  intro fuel
  induction fuel with
  | zero =>
      intro j acc hij hfuel
      simp only [autoInner]
      rw [Finset.Ico_eq_empty (by omega)]
      simp
  | succ fuel ih =>
      intro j acc hij hfuel
      simp only [autoInner]
      by_cases hjN : j < τ.length
      · rw [if_pos hjN]
        have hd0 : 0 ≤ getI τ j - getI τ i := by
          have := hsort i j (by omega) hjN
          omega
        have hW0 : 0 < W := by nlinarith
        by_cases hbreak : W < getI τ j - getI τ i
        · rw [if_pos hbreak]
          refine congrArg Except.ok (funext fun k => ?_)
          have hz : (∑ β ∈ Finset.Ico j τ.length,
              (crossInd τ τ W b H β i k + crossInd τ τ W b H i β k)) = 0 := by
            refine Finset.sum_eq_zero (fun β hβ => ?_)
            simp only [Finset.mem_Ico] at hβ
            have hmono := hsort j β hβ.1 hβ.2
            unfold crossInd
            rw [if_neg (by omega), if_neg (by omega)]
            omega
          omega
        · rw [if_neg hbreak]
          have hdW : getI τ j - getI τ i ≠ W := hnW j i hjN hi (by omega)
          have hdltW : getI τ j - getI τ i < W := by omega
          have hz1l : (0 : ℤ) ≤ H + (getI τ j - getI τ i).fdiv b :=
            bin_lower hb hHW (by omega)
          have hz1u : H + (getI τ j - getI τ i).fdiv b < (nb : ℤ) := by
            rw [hnb]
            exact bin_upper hb hHW hdltW
          have hz2l : (0 : ℤ) ≤ H + (-(getI τ j - getI τ i)).fdiv b :=
            bin_lower hb hHW (by omega)
          have hz2u : H + (-(getI τ j - getI τ i)).fdiv b < (nb : ℤ) := by
            rw [hnb]
            exact bin_upper hb hHW (by omega)
          rw [arrBump_ok acc hz1l hz1u, exceptBind_ok, arrBump_ok _ hz2l hz2u, exceptBind_ok]
          rw [ih (j + 1) _ (by omega) (by omega)]
          refine congrArg Except.ok (funext fun k => ?_)
          rw [Finset.sum_eq_sum_Ico_succ_bot hjN]
          have c1 : crossInd τ τ W b H j i k
              = (if (k : ℤ) = H + (getI τ j - getI τ i).fdiv b then 1 else 0) := by
            unfold crossInd
            refine if_congr ?_ rfl rfl
            constructor
            · rintro ⟨-, -, h3⟩
              omega
            · intro h
              exact ⟨by omega, hdltW, by omega⟩
          have c2 : crossInd τ τ W b H i j k
              = (if (k : ℤ) = H + (-(getI τ j - getI τ i)).fdiv b then 1 else 0) := by
            unfold crossInd
            have hlag : getI τ i - getI τ j = -(getI τ j - getI τ i) := by ring
            rw [hlag]
            refine if_congr ?_ rfl rfl
            constructor
            · rintro ⟨-, -, h3⟩
              omega
            · intro h
              exact ⟨by omega, by omega, by omega⟩
          rw [c1, c2]
          beta_reduce
          split_ifs <;> omega
      · rw [if_neg hjN]
        rw [Finset.Ico_eq_empty (by omega)]
        simp

/-- Characterization of the outer loop of `_compute_autocorr_numba`. -/
theorem autoOuter_char {τ : List ℤ} {W b H : ℤ} {nb : ℕ} (hb : 0 < b) (hHW : W = H * b)
    (hH1 : 1 ≤ H) (hnb : (nb : ℤ) = 2 * H) (hsort : TimesSorted τ)
    (hnW : NoExactWindowPair τ W) :
    ∀ (fuel i : ℕ) (acc : ℕ → ℕ), τ.length ≤ fuel + i →
      autoOuter τ W b H nb fuel i acc = .ok (fun k => acc k
        + ∑ α ∈ Finset.Ico i τ.length, ∑ β ∈ Finset.Ico (α + 1) τ.length,
            (crossInd τ τ W b H β α k + crossInd τ τ W b H α β k)) := by
  intro fuel
  induction fuel with
  | zero =>
      intro i acc hfuel
      simp only [autoOuter]
      rw [Finset.Ico_eq_empty (by omega)]
      simp
  | succ fuel ih =>
      intro i acc hfuel
      simp only [autoOuter]
      by_cases hiN : i < τ.length
      · rw [if_pos hiN]
        rw [autoInner_char hb hHW hH1 hnb hsort hnW i hiN τ.length (i + 1) acc (by omega)
          (by omega), exceptBind_ok]
        rw [ih (i + 1) _ (by omega)]
        refine congrArg Except.ok (funext fun k => ?_)
        rw [Finset.sum_eq_sum_Ico_succ_bot (show i < τ.length from hiN)
          (fun α => ∑ β ∈ Finset.Ico (α + 1) τ.length,
            (crossInd τ τ W b H β α k + crossInd τ τ W b H α β k))]
        omega
      · rw [if_neg hiN]
        rw [Finset.Ico_eq_empty (by omega)]
        simp

/-- Characterization of `_compute_autocorr_numba`: on a time-ordered spike
train with no pair exactly `window_size` apart, it completes without any
out-of-bounds write and returns the ideal autocorrelogram. -/
theorem compute_autocorr_numba_char {τ : List ℤ} {W b : ℤ} (hb : 0 < b) (hWb : b ∣ W)
    (hbW : b ≤ W) (hsort : TimesSorted τ) (hnW : NoExactWindowPair τ W) :
    compute_autocorr_numba τ W b = .ok (autoSpec τ W b (numHalfBins W b)) := by
  have hHW : W = numHalfBins W b * b := numHalfBins_mul hb hWb
  have hH1 : 1 ≤ numHalfBins W b := by
    unfold numHalfBins
    rw [le_fdiv_iff hb]
    omega
  have hnb : ((numBins W b : ℕ) : ℤ) = 2 * numHalfBins W b := by
    unfold numBins
    omega
  unfold compute_autocorr_numba
  rw [autoOuter_char hb hHW hH1 hnb hsort hnW τ.length 0 _ (by omega)]
  refine congrArg Except.ok (funext fun k => ?_)
  show 0 + (∑ α ∈ Finset.Ico 0 τ.length, ∑ β ∈ Finset.Ico (α + 1) τ.length,
      (crossInd τ τ W b (numHalfBins W b) β α k + crossInd τ τ W b (numHalfBins W b) α β k))
    = autoSpec τ W b (numHalfBins W b) k
  unfold autoSpec
  rw [sum_offdiag τ.length (fun p q => crossInd τ τ W b (numHalfBins W b) p q k)]
  rw [show Finset.Ico 0 τ.length = Finset.range τ.length from congrFun Finset.range_eq_Ico.symm _]
  rw [Nat.zero_add]
  exact Finset.sum_congr rfl (fun α _ => Finset.sum_congr rfl (fun β _ => by omega))

/-- Characterization of the inner loop of `_compute_crosscorr_numba`: the scan
from `j` counts exactly the in-window partners at or past `j`, never writes
out of bounds, and returns a `start_j` all of whose predecessors are at least
a window in the past of spike `i`. -/
theorem crossInner_char {t1 t2 : List ℤ} {W b H : ℤ} {nb : ℕ} (hb : 0 < b)
    (hHW : W = H * b) (hnb : (nb : ℤ) = 2 * H) (hsort2 : TimesSorted t2) (i : ℕ) :
    ∀ (fuel j s₀ : ℕ) (acc : ℕ → ℕ), t2.length ≤ fuel + j → s₀ ≤ j →
      (∀ jj, jj < s₀ → jj < t2.length → W ≤ getI t1 i - getI t2 jj) →
      ∃ s', crossInner t1 t2 W b H nb i fuel j s₀ acc
          = .ok (s', fun k => acc k + ∑ β ∈ Finset.Ico j t2.length, crossInd t1 t2 W b H i β k)
        ∧ (∀ jj, jj < s' → jj < t2.length → W ≤ getI t1 i - getI t2 jj) := by
  intro fuel
  induction fuel with
  | zero =>
      intro j s₀ acc hfuel hsj ha
      refine ⟨s₀, ?_, ha⟩
      simp only [crossInner]
      rw [Finset.Ico_eq_empty (by omega)]
      simp
  | succ fuel ih =>
      intro j s₀ acc hfuel hsj ha
      simp only [crossInner]
      by_cases hjN : j < t2.length
      · rw [if_pos hjN]
        by_cases hskip : W ≤ getI t1 i - getI t2 j
        · rw [if_pos hskip]
          have ha' : ∀ jj, jj < s₀ + 1 → jj < t2.length → W ≤ getI t1 i - getI t2 jj := by
            intro jj hjj hjjN
            rcases Nat.lt_or_ge jj s₀ with h | h
            · exact ha jj h hjjN
            · have hjj0 : jj = s₀ := by omega
              subst hjj0
              have := hsort2 jj j (by omega) hjN
              omega
          obtain ⟨s', heq, hpost⟩ := ih (j + 1) (s₀ + 1) acc (by omega) (by omega) ha'
          refine ⟨s', ?_, hpost⟩
          rw [heq]
          refine congrArg Except.ok (congrArg (Prod.mk s') (funext fun k => ?_))
          rw [Finset.sum_eq_sum_Ico_succ_bot hjN]
          have hz : crossInd t1 t2 W b H i j k = 0 := by
            unfold crossInd
            rw [if_neg (by omega)]
          omega
        · rw [if_neg hskip]
          by_cases hbrk : getI t1 i - getI t2 j < -W
          · rw [if_pos hbrk]
            refine ⟨s₀, ?_, ha⟩
            refine congrArg Except.ok (congrArg (Prod.mk s₀) (funext fun k => ?_))
            have hz : (∑ β ∈ Finset.Ico j t2.length, crossInd t1 t2 W b H i β k) = 0 := by
              refine Finset.sum_eq_zero (fun β hβ => ?_)
              simp only [Finset.mem_Ico] at hβ
              have := hsort2 j β hβ.1 hβ.2
              unfold crossInd
              rw [if_neg (by omega)]
            omega
          · rw [if_neg hbrk]
            have hwin : -W ≤ getI t1 i - getI t2 j ∧ getI t1 i - getI t2 j < W := by omega
            have hzl : (0 : ℤ) ≤ H + (getI t1 i - getI t2 j).fdiv b :=
              bin_lower hb hHW hwin.1
            have hzu : H + (getI t1 i - getI t2 j).fdiv b < (nb : ℤ) := by
              rw [hnb]
              exact bin_upper hb hHW hwin.2
            rw [arrBump_ok acc hzl hzu, exceptBind_ok]
            obtain ⟨s', heq, hpost⟩ := ih (j + 1) s₀ _ (by omega) (by omega) ha
            refine ⟨s', ?_, hpost⟩
            rw [heq]
            refine congrArg Except.ok (congrArg (Prod.mk s') (funext fun k => ?_))
            rw [Finset.sum_eq_sum_Ico_succ_bot hjN]
            have c1 : crossInd t1 t2 W b H i j k
                = (if (k : ℤ) = H + (getI t1 i - getI t2 j).fdiv b then 1 else 0) := by
              unfold crossInd
              refine if_congr ?_ rfl rfl
              constructor
              · rintro ⟨-, -, h3⟩
                omega
              · intro h
                exact ⟨hwin.1, hwin.2, by omega⟩
            rw [c1]
            beta_reduce
            split_ifs <;> omega
      · rw [if_neg hjN]
        refine ⟨s₀, ?_, ha⟩
        rw [Finset.Ico_eq_empty (by omega)]
        simp

/-- Characterization of the outer loop of `_compute_crosscorr_numba`. -/
theorem crossOuter_char {t1 t2 : List ℤ} {W b H : ℤ} {nb : ℕ} (hb : 0 < b)
    (hHW : W = H * b) (hnb : (nb : ℤ) = 2 * H) (hsort1 : TimesSorted t1)
    (hsort2 : TimesSorted t2) :
    ∀ (fuel i s₀ : ℕ) (acc : ℕ → ℕ), t1.length ≤ fuel + i →
      (∀ jj, jj < s₀ → jj < t2.length → i < t1.length → W ≤ getI t1 i - getI t2 jj) →
      crossOuter t1 t2 W b H nb fuel i s₀ acc = .ok (fun k => acc k
        + ∑ α ∈ Finset.Ico i t1.length, ∑ β ∈ Finset.range t2.length,
            crossInd t1 t2 W b H α β k) := by
  intro fuel
  induction fuel with
  | zero =>
      intro i s₀ acc hfuel hpre
      simp only [crossOuter]
      rw [Finset.Ico_eq_empty (by omega)]
      simp
  | succ fuel ih =>
      intro i s₀ acc hfuel hpre
      simp only [crossOuter]
      by_cases hiN : i < t1.length
      · rw [if_pos hiN]
        obtain ⟨s', heq, hpost⟩ := crossInner_char hb hHW hnb hsort2 i t2.length s₀ s₀ acc
          (by omega) (by omega) (fun jj h1 h2 => hpre jj h1 h2 hiN)
        rw [heq, exceptBind_ok]
        show crossOuter t1 t2 W b H nb fuel (i + 1) s'
          (fun k => acc k + ∑ β ∈ Finset.Ico s₀ t2.length, crossInd t1 t2 W b H i β k) = _
        rw [ih (i + 1) s' _ (by omega) ?_]
        · refine congrArg Except.ok (funext fun k => ?_)
          beta_reduce
          rw [Finset.sum_eq_sum_Ico_succ_bot hiN
            (fun α => ∑ β ∈ Finset.range t2.length, crossInd t1 t2 W b H α β k)]
          have hext : (∑ β ∈ Finset.Ico s₀ t2.length, crossInd t1 t2 W b H i β k)
              = ∑ β ∈ Finset.range t2.length, crossInd t1 t2 W b H i β k := by
            refine Finset.sum_subset (fun β hβ => ?_) (fun β hβ1 hβ2 => ?_)
            · simp only [Finset.mem_Ico] at hβ
              simp only [Finset.mem_range]
              omega
            · simp only [Finset.mem_range] at hβ1
              simp only [Finset.mem_Ico] at hβ2
              have := hpre β (by omega) hβ1 hiN
              unfold crossInd
              rw [if_neg (by omega)]
          rw [← hext]
          omega
        · intro jj h1 h2 h3
          have h4 := hpost jj h1 h2
          have h5 := hsort1 i (i + 1) (by omega) h3
          omega
      · rw [if_neg hiN]
        rw [Finset.Ico_eq_empty (by omega)]
        simp

/-- Characterization of `_compute_crosscorr_numba`: on time-ordered spike
trains it completes without out-of-bounds writes and returns the ideal
cross-correlogram (pairs with `-window_size ≤ diff < window_size`). -/
theorem compute_crosscorr_numba_char {t1 t2 : List ℤ} {W b : ℤ} (hb : 0 < b)
    (hWb : b ∣ W) (hW0 : 0 ≤ W) (hsort1 : TimesSorted t1) (hsort2 : TimesSorted t2) :
    compute_crosscorr_numba t1 t2 W b = .ok (crossSpec t1 t2 W b (numHalfBins W b)) := by
  have hHW : W = numHalfBins W b * b := numHalfBins_mul hb hWb
  have hnb : ((numBins W b : ℕ) : ℤ) = 2 * numHalfBins W b := by
    unfold numBins
    have := numHalfBins_nonneg hb hW0
    omega
  unfold compute_crosscorr_numba
  rw [crossOuter_char hb hHW hnb hsort1 hsort2 t1.length 0 0 _ (by omega)
    (fun jj h1 h2 h3 => by omega)]
  refine congrArg Except.ok (funext fun k => ?_)
  show 0 + (∑ α ∈ Finset.Ico 0 t1.length, ∑ β ∈ Finset.range t2.length,
    crossInd t1 t2 W b (numHalfBins W b) α β k) = crossSpec t1 t2 W b (numHalfBins W b) k
  unfold crossSpec
  rw [show Finset.Ico 0 t1.length = Finset.range t1.length from
    congrFun Finset.range_eq_Ico.symm _]
  omega

/-! ## Bridges between position-indexed counts and per-unit stream counts -/

theorem zip_length {ls : List ℕ} {ts : List ℤ} (hlen : ls.length = ts.length) :
    (ls.zip ts).length = ts.length := by
  rw [List.length_zip, hlen, Nat.min_self]

theorem zip_getD {ls : List ℕ} {ts : List ℤ} (hlen : ls.length = ts.length) {q : ℕ}
    (hq : q < ts.length) : (ls.zip ts).getD q (0, 0) = (getL ls q, getI ts q) := by
  have hzl : q < (ls.zip ts).length := by rw [zip_length hlen]; omega
  rw [List.getD_eq_getElem _ _ hzl, List.getElem_zip]
  unfold getL getI
  rw [List.getD_eq_getElem _ _ (by omega), List.getD_eq_getElem _ _ (by omega)]

theorem filterMap_label_sum (l : List (ℕ × ℤ)) (u : ℕ) (g : ℤ → ℕ) :
    ((l.filterMap (fun x => if x.1 = u then some x.2 else none)).map g).sum
    = (l.map (fun x => if x.1 = u then g x.2 else 0)).sum := by
  induction l with
  | nil => simp
  | cons x xs ih =>
      by_cases hx : x.1 = u
      · simp only [List.filterMap_cons, hx, if_pos, List.map_cons, List.sum_cons, ih]
      · simp [List.filterMap_cons, hx, ih]

/-- Summing a value function over the positions carrying label `u` equals
summing it over the extracted stream of unit `u`. -/
theorem stream_sum {ls : List ℕ} {ts : List ℤ} (hlen : ls.length = ts.length) (u : ℕ)
    (g : ℤ → ℕ) :
    (∑ p ∈ Finset.range ts.length, if getL ls p = u then g (getI ts p) else 0)
    = ∑ α ∈ Finset.range (spikesOfUnit ts ls u).length, g (getI (spikesOfUnit ts ls u) α) := by
  have h1 : (∑ p ∈ Finset.range ts.length, if getL ls p = u then g (getI ts p) else 0)
      = ∑ p ∈ Finset.range (ls.zip ts).length,
          (fun w : ℕ × ℤ => if w.1 = u then g w.2 else 0) ((ls.zip ts).getD p (0, 0)) := by
    rw [zip_length hlen]
    refine Finset.sum_congr rfl (fun p hp => ?_)
    simp only [Finset.mem_range] at hp
    rw [zip_getD hlen hp]
  have h2 : (∑ α ∈ Finset.range (spikesOfUnit ts ls u).length,
        g (getI (spikesOfUnit ts ls u) α))
      = ((spikesOfUnit ts ls u).map g).sum := by
    rw [← sum_range_getD (spikesOfUnit ts ls u) 0 g]
    rfl
  rw [h1, h2, sum_range_getD (ls.zip ts) (0, 0) (fun w => if w.1 = u then g w.2 else 0)]
  unfold spikesOfUnit
  rw [filterMap_label_sum]

/-- The full double-label bridge: counting over ordered position pairs with
labels `(a, b')` equals counting over ordered stream pairs (no distinctness
anywhere). -/
theorem full_cross_bridge {ls : List ℕ} {ts : List ℤ} (hlen : ls.length = ts.length)
    (W b H : ℤ) (a b' k : ℕ) :
    (∑ p ∈ Finset.range ts.length, ∑ q ∈ Finset.range ts.length,
      if getL ls p = a ∧ getL ls q = b' ∧ -W ≤ getI ts p - getI ts q ∧
          getI ts p - getI ts q < W ∧ H + (getI ts p - getI ts q).fdiv b = (k : ℤ)
      then 1 else 0)
    = crossSpec (spikesOfUnit ts ls a) (spikesOfUnit ts ls b') W b H k := by
  have step1 : ∀ p, (∑ q ∈ Finset.range ts.length,
        if getL ls p = a ∧ getL ls q = b' ∧ -W ≤ getI ts p - getI ts q ∧
            getI ts p - getI ts q < W ∧ H + (getI ts p - getI ts q).fdiv b = (k : ℤ)
        then (1 : ℕ) else 0)
      = if getL ls p = a then
          (∑ q ∈ Finset.range ts.length,
            if getL ls q = b' ∧ -W ≤ getI ts p - getI ts q ∧ getI ts p - getI ts q < W ∧
                H + (getI ts p - getI ts q).fdiv b = (k : ℤ) then 1 else 0)
        else 0 := by
    intro p
    by_cases hp : getL ls p = a
    · rw [if_pos hp]
      refine Finset.sum_congr rfl (fun q _ => ?_)
      refine if_congr ?_ rfl rfl
      tauto
    · rw [if_neg hp]
      refine Finset.sum_eq_zero (fun q _ => ?_)
      rw [if_neg (by tauto)]
  rw [Finset.sum_congr rfl (fun p _ => step1 p)]
  have step2 : ∀ x : ℤ, (∑ q ∈ Finset.range ts.length,
        if getL ls q = b' ∧ -W ≤ x - getI ts q ∧ x - getI ts q < W ∧
            H + (x - getI ts q).fdiv b = (k : ℤ) then (1 : ℕ) else 0)
      = ∑ β ∈ Finset.range (spikesOfUnit ts ls b').length,
          crossInd [x] (spikesOfUnit ts ls b') W b H 0 β k := by
    intro x
    have h := stream_sum hlen b' (fun y => if -W ≤ x - y ∧ x - y < W ∧
      H + (x - y).fdiv b = (k : ℤ) then (1 : ℕ) else 0)
    calc (∑ q ∈ Finset.range ts.length,
          if getL ls q = b' ∧ -W ≤ x - getI ts q ∧ x - getI ts q < W ∧
              H + (x - getI ts q).fdiv b = (k : ℤ) then (1 : ℕ) else 0)
        = ∑ q ∈ Finset.range ts.length, if getL ls q = b' then
            (if -W ≤ x - getI ts q ∧ x - getI ts q < W ∧
              H + (x - getI ts q).fdiv b = (k : ℤ) then (1 : ℕ) else 0) else 0 := by
          refine Finset.sum_congr rfl (fun q _ => ?_)
          exact ite_and _ _ _ _
      _ = ∑ β ∈ Finset.range (spikesOfUnit ts ls b').length,
            (if -W ≤ x - getI (spikesOfUnit ts ls b') β ∧
                x - getI (spikesOfUnit ts ls b') β < W ∧
                H + (x - getI (spikesOfUnit ts ls b') β).fdiv b = (k : ℤ)
              then (1 : ℕ) else 0) := h
      _ = ∑ β ∈ Finset.range (spikesOfUnit ts ls b').length,
            crossInd [x] (spikesOfUnit ts ls b') W b H 0 β k := by
          refine Finset.sum_congr rfl (fun β _ => ?_)
          unfold crossInd getI
          simp only [List.getD]
          rfl
  have step3 : (∑ p ∈ Finset.range ts.length, if getL ls p = a then
        (∑ q ∈ Finset.range ts.length,
          if getL ls q = b' ∧ -W ≤ getI ts p - getI ts q ∧ getI ts p - getI ts q < W ∧
              H + (getI ts p - getI ts q).fdiv b = (k : ℤ) then (1 : ℕ) else 0)
        else 0)
      = ∑ α ∈ Finset.range (spikesOfUnit ts ls a).length,
          ∑ β ∈ Finset.range (spikesOfUnit ts ls b').length,
            crossInd [getI (spikesOfUnit ts ls a) α] (spikesOfUnit ts ls b') W b H 0 β k := by
    have h := stream_sum hlen a (fun x => ∑ β ∈ Finset.range (spikesOfUnit ts ls b').length,
      crossInd [x] (spikesOfUnit ts ls b') W b H 0 β k)
    calc _ = ∑ p ∈ Finset.range ts.length, if getL ls p = a then
          (∑ β ∈ Finset.range (spikesOfUnit ts ls b').length,
            crossInd [getI ts p] (spikesOfUnit ts ls b') W b H 0 β k) else 0 := by
          refine Finset.sum_congr rfl (fun p _ => if_congr Iff.rfl (step2 (getI ts p)) rfl)
      _ = _ := h
  rw [step3]
  unfold crossSpec
  refine Finset.sum_congr rfl (fun α _ => Finset.sum_congr rfl (fun β _ => ?_))
  unfold crossInd getI
  simp only [List.getD]
  rfl

/-- Splitting off the diagonal of a full double sum. -/
theorem sum_split_diag (N : ℕ) (X : ℕ → ℕ → Prop) [∀ p q, Decidable (X p q)] :
    (∑ p ∈ Finset.range N, ∑ q ∈ Finset.range N, if X p q then (1 : ℕ) else 0)
    = (∑ p ∈ Finset.range N, ∑ q ∈ Finset.range N, if p ≠ q ∧ X p q then 1 else 0)
      + ∑ p ∈ Finset.range N, if X p p then 1 else 0 := by
  rw [← Finset.sum_add_distrib]
  refine Finset.sum_congr rfl (fun p hp => ?_)
  have hsplit : ∀ q, (if X p q then (1 : ℕ) else 0)
      = (if p ≠ q ∧ X p q then 1 else 0) + (if q = p ∧ X p q then 1 else 0) := by
    intro q
    by_cases hpq : p = q <;> by_cases hx : X p q <;> simp_all <;> omega
  rw [Finset.sum_congr rfl (fun q _ => hsplit q), Finset.sum_add_distrib]
  congr 1
  rw [Finset.sum_congr rfl (fun q _ => ite_and (q = p) (X p q) (1 : ℕ) 0)]
  rw [Finset.sum_ite_eq' (Finset.range N) p (fun q => if X p q then (1 : ℕ) else 0)]
  rw [if_pos hp]

/-! ## Transfer of segment hypotheses to per-unit streams -/

/-- Pair properties transfer from segment positions to stream positions:
`spike_times[spike_labels == u]` preserves relative order. -/
theorem pairwise_stream {ls : List ℕ} {ts : List ℤ} {R : ℤ → ℤ → Prop}
    (hlen : ls.length = ts.length)
    (h : ∀ p q, p < q → q < ts.length → R (getI ts p) (getI ts q)) (u : ℕ) :
    ∀ α β, α < β → β < (spikesOfUnit ts ls u).length →
      R (getI (spikesOfUnit ts ls u) α) (getI (spikesOfUnit ts ls u) β) := by
  have hts : ts.Pairwise R := by
    refine List.pairwise_iff_getElem.2 (fun i j hi hj hij => ?_)
    have := h i j hij hj
    unfold getI at this
    rwa [List.getD_eq_getElem _ _ hi, List.getD_eq_getElem _ _ hj] at this
  have hzip : (ls.zip ts).Pairwise (fun x y => R x.2 y.2) := by
    refine List.pairwise_iff_getElem.2 (fun i j hi hj hij => ?_)
    have hlz : (ls.zip ts).length = ts.length := zip_length hlen
    rw [List.getElem_zip, List.getElem_zip]
    exact List.pairwise_iff_getElem.1 hts i j (by omega) (by omega) hij
  have hstream : (spikesOfUnit ts ls u).Pairwise R := by
    unfold spikesOfUnit
    rw [List.pairwise_filterMap]
    refine hzip.imp (fun {x y} hxy => ?_)
    intro x' hx' y' hy'
    by_cases hxu : x.1 = u
    · by_cases hyu : y.1 = u
      · simp only [hxu, if_pos, Option.mem_def, Option.some.injEq] at hx'
        simp only [hyu, if_pos, Option.mem_def, Option.some.injEq] at hy'
        rw [← hx', ← hy']
        exact hxy
      · simp [hyu] at hy'
    · simp [hxu] at hx'
  intro α β hαβ hβ
  have := List.pairwise_iff_getElem.1 hstream α β (by omega) hβ hαβ
  unfold getI
  rwa [List.getD_eq_getElem _ _ (by omega), List.getD_eq_getElem _ _ (by omega)]

theorem stream_sorted {ls : List ℕ} {ts : List ℤ} (hlen : ls.length = ts.length)
    (hsort : TimesSorted ts) (u : ℕ) : TimesSorted (spikesOfUnit ts ls u) := by
  intro p q hpq hq
  rcases Nat.lt_or_ge p q with h | h
  · exact pairwise_stream hlen (fun p' q' h1 h2 => hsort p' q' (by omega) h2) u p q h hq
  · have : p = q := by omega
    subst this
    rfl

theorem stream_noW {ls : List ℕ} {ts : List ℤ} {W : ℤ} (hlen : ls.length = ts.length)
    (hnW : NoExactWindowPair ts W) (u : ℕ) :
    NoExactWindowPair (spikesOfUnit ts ls u) W := by
  have h := pairwise_stream (R := fun x y => y - x ≠ W ∧ x - y ≠ W) hlen
    (fun p q h1 h2 => ⟨hnW q p h2 (by omega) (by omega), hnW p q (by omega) h2 (by omega)⟩) u
  intro p q hp hq hpq
  rcases Nat.lt_or_ge p q with hlt | hge
  · exact (h p q hlt hq).2
  · exact (h q p (by omega) hp).1

/-- Every stream element sits at a segment position carrying its label. -/
theorem spikesOfUnit_mem {ls : List ℕ} {ts : List ℤ} (hlen : ls.length = ts.length)
    {u : ℕ} {x : ℤ} (hx : x ∈ spikesOfUnit ts ls u) :
    ∃ p, p < ts.length ∧ getL ls p = u ∧ getI ts p = x := by
  unfold spikesOfUnit at hx
  obtain ⟨w, hw, hfw⟩ := List.mem_filterMap.1 hx
  by_cases hwu : w.1 = u
  · simp only [hwu, if_pos, Option.some.injEq] at hfw
    obtain ⟨i, hi, hiw⟩ := List.mem_iff_getElem.1 hw
    have hlz : (ls.zip ts).length = ts.length := zip_length hlen
    refine ⟨i, by omega, ?_, ?_⟩
    · unfold getL
      rw [List.getD_eq_getElem _ _ (by omega)]
      rw [List.getElem_zip] at hiw
      have := congrArg Prod.fst hiw
      simpa using this.trans hwu
    · unfold getI
      rw [List.getD_eq_getElem _ _ (by omega)]
      rw [List.getElem_zip] at hiw
      have := congrArg Prod.snd hiw
      simpa using this.trans hfw
  · simp [hwu] at hfw

theorem getI_mem {l : List ℤ} {α : ℕ} (h : α < l.length) : getI l α ∈ l := by
  unfold getI
  rw [List.getD_eq_getElem _ _ h]
  exact List.getElem_mem h

/-! ## pairCount versus the per-unit stream specifications -/

/-- Off-diagonal cells: position pairs with labels `(a, b')`, `a ≠ b'`, are
exactly the stream pairs of the two units. -/
theorem pairCount_cross {ls : List ℕ} {ts : List ℤ} {W b H : ℤ}
    (hlen : ls.length = ts.length) {a b' : ℕ} (hab : a ≠ b') (k : ℕ) :
    pairCount ts ls W b H a b' k
    = crossSpec (spikesOfUnit ts ls a) (spikesOfUnit ts ls b') W b H k := by
  unfold pairCount lagOf
  rw [← full_cross_bridge hlen W b H a b' k]
  refine Finset.sum_congr rfl (fun p _ => Finset.sum_congr rfl (fun q _ => ?_))
  refine if_congr ?_ rfl rfl
  constructor
  · rintro ⟨-, h⟩
    exact h
  · rintro ⟨h1, h2, h3⟩
    refine ⟨fun hpq => hab ?_, h1, h2, h3⟩
    rw [hpq] at h1
    rw [← h1, ← h2]

/-- Diagonal cells: position pairs with label `(a, a)` and distinct positions
are exactly the distinct stream pairs of unit `a`. -/
theorem pairCount_auto {ls : List ℕ} {ts : List ℤ} {W b H : ℤ}
    (hlen : ls.length = ts.length) (a k : ℕ) :
    pairCount ts ls W b H a a k = autoSpec (spikesOfUnit ts ls a) W b H k := by
  have hfull : (∑ p ∈ Finset.range ts.length, ∑ q ∈ Finset.range ts.length,
        if getL ls p = a ∧ getL ls q = a ∧ -W ≤ getI ts p - getI ts q ∧
            getI ts p - getI ts q < W ∧ H + (getI ts p - getI ts q).fdiv b = (k : ℤ)
        then (1 : ℕ) else 0)
      = crossSpec (spikesOfUnit ts ls a) (spikesOfUnit ts ls a) W b H k :=
    full_cross_bridge hlen W b H a a k
  have hsplit1 := sum_split_diag ts.length (fun p q => getL ls p = a ∧ getL ls q = a ∧
    -W ≤ getI ts p - getI ts q ∧ getI ts p - getI ts q < W ∧
    H + (getI ts p - getI ts q).fdiv b = (k : ℤ))
  have hsplit2 := sum_split_diag (spikesOfUnit ts ls a).length (fun α β =>
    -W ≤ getI (spikesOfUnit ts ls a) α - getI (spikesOfUnit ts ls a) β ∧
    getI (spikesOfUnit ts ls a) α - getI (spikesOfUnit ts ls a) β < W ∧
    H + (getI (spikesOfUnit ts ls a) α - getI (spikesOfUnit ts ls a) β).fdiv b = (k : ℤ))
  have hpc : pairCount ts ls W b H a a k
      = ∑ p ∈ Finset.range ts.length, ∑ q ∈ Finset.range ts.length,
          if p ≠ q ∧ (getL ls p = a ∧ getL ls q = a ∧ -W ≤ getI ts p - getI ts q ∧
            getI ts p - getI ts q < W ∧ H + (getI ts p - getI ts q).fdiv b = (k : ℤ))
          then 1 else 0 := by
    unfold pairCount lagOf
    rfl
  have hauto : autoSpec (spikesOfUnit ts ls a) W b H k
      = ∑ α ∈ Finset.range (spikesOfUnit ts ls a).length,
          ∑ β ∈ Finset.range (spikesOfUnit ts ls a).length,
          if α ≠ β ∧ (-W ≤ getI (spikesOfUnit ts ls a) α - getI (spikesOfUnit ts ls a) β ∧
              getI (spikesOfUnit ts ls a) α - getI (spikesOfUnit ts ls a) β < W ∧
              H + (getI (spikesOfUnit ts ls a) α - getI (spikesOfUnit ts ls a) β).fdiv b
                = (k : ℤ)) then 1 else 0 := by
    unfold autoSpec crossInd
    refine Finset.sum_congr rfl (fun α _ => Finset.sum_congr rfl (fun β _ => ?_))
    exact (ite_and _ _ _ _).symm
  have hcsp : crossSpec (spikesOfUnit ts ls a) (spikesOfUnit ts ls a) W b H k
      = ∑ α ∈ Finset.range (spikesOfUnit ts ls a).length,
          ∑ β ∈ Finset.range (spikesOfUnit ts ls a).length,
          if (-W ≤ getI (spikesOfUnit ts ls a) α - getI (spikesOfUnit ts ls a) β ∧
              getI (spikesOfUnit ts ls a) α - getI (spikesOfUnit ts ls a) β < W ∧
              H + (getI (spikesOfUnit ts ls a) α - getI (spikesOfUnit ts ls a) β).fdiv b
                = (k : ℤ)) then 1 else 0 := by
    unfold crossSpec crossInd
    rfl
  have hdiag : (∑ p ∈ Finset.range ts.length,
        if getL ls p = a ∧ getL ls p = a ∧ -W ≤ getI ts p - getI ts p ∧
            getI ts p - getI ts p < W ∧ H + (getI ts p - getI ts p).fdiv b = (k : ℤ)
        then (1 : ℕ) else 0)
      = ∑ α ∈ Finset.range (spikesOfUnit ts ls a).length,
          if -W ≤ getI (spikesOfUnit ts ls a) α - getI (spikesOfUnit ts ls a) α ∧
              getI (spikesOfUnit ts ls a) α - getI (spikesOfUnit ts ls a) α < W ∧
              H + (getI (spikesOfUnit ts ls a) α - getI (spikesOfUnit ts ls a) α).fdiv b
                = (k : ℤ) then 1 else 0 := by
    have h := stream_sum hlen a (fun x => if -W ≤ x - x ∧ x - x < W ∧
      H + (x - x).fdiv b = (k : ℤ) then (1 : ℕ) else 0)
    calc _ = ∑ p ∈ Finset.range ts.length, if getL ls p = a then
          (if -W ≤ getI ts p - getI ts p ∧ getI ts p - getI ts p < W ∧
            H + (getI ts p - getI ts p).fdiv b = (k : ℤ) then (1 : ℕ) else 0) else 0 := by
          refine Finset.sum_congr rfl (fun p _ => ?_)
          by_cases hp : getL ls p = a
          · simp only [hp, true_and, if_pos]
          · simp [hp]
      _ = _ := h
  omega

/-- Mirror property of the ideal cross-correlogram when no in-window cross
pair sits on the bin grid. -/
theorem crossSpec_mirror {t1 t2 : List ℤ} {W b H : ℤ} {nb : ℕ} (hb : 0 < b)
    (hWb : b ∣ W) (hHW : W = H * b) (hnb : (nb : ℤ) = 2 * H)
    (hoff : ∀ α β, α < t1.length → β < t2.length →
      -W ≤ getI t1 α - getI t2 β → getI t1 α - getI t2 β ≤ W →
      ¬ b ∣ (getI t1 α - getI t2 β)) {k : ℕ} (hk : k < nb) :
    crossSpec t1 t2 W b H k = crossSpec t2 t1 W b H (nb - 1 - k) := by
  unfold crossSpec
  rw [Finset.sum_comm]
  refine Finset.sum_congr rfl (fun α hα => Finset.sum_congr rfl (fun β hβ => ?_))
  simp only [Finset.mem_range] at hα hβ
  unfold crossInd
  have hneg : getI t2 α - getI t1 β = -(getI t1 β - getI t2 α) := by ring
  rw [hneg]
  have hcast : (((nb - 1 - k : ℕ)) : ℤ) = (nb : ℤ) - 1 - (k : ℤ) := by omega
  refine if_congr ?_ rfl rfl
  constructor
  · rintro ⟨h1, h2, h3⟩
    have hnd : ¬ b ∣ (getI t1 β - getI t2 α) := hoff β α hβ hα h1 (by omega)
    have hne : getI t1 β - getI t2 α ≠ -W := by
      intro hEq
      exact hnd (hEq ▸ (dvd_neg.2 hWb))
    have hf := fdiv_neg_of_not_dvd hb hnd
    refine ⟨by omega, by omega, ?_⟩
    rw [hf, hcast]
    omega
  · rintro ⟨h1, h2, h3⟩
    have hnd : ¬ b ∣ (getI t1 β - getI t2 α) := hoff β α hβ hα (by omega) (by omega)
    have hneW : getI t1 β - getI t2 α ≠ W := by
      intro hEq
      exact hnd (hEq ▸ hWb)
    have hf := fdiv_neg_of_not_dvd hb hnd
    rw [hf, hcast] at h3
    refine ⟨by omega, by omega, by omega⟩

/-! ## Tensor assembly of the numba strategy -/

/-- `len(np.unique(spike_labels))` equals the sorting's unit count on a
densely labelled segment. -/
theorem uniqueCount_of_dense {ls : List ℕ} {U : ℕ} (h : LabelsDense ls U) :
    uniqueCount ls = U := by
  unfold uniqueCount
  rw [← List.card_toFinset]
  have h' : ls.toFinset = Finset.range U := h
  rw [h', Finset.card_range]

theorem dense_getL_lt {ls : List ℕ} {U : ℕ} (h : LabelsDense ls U) {p : ℕ}
    (hp : p < ls.length) : getL ls p < U := by
  have hmem : getL ls p ∈ ls := by
    unfold getL
    rw [List.getD_eq_getElem _ _ hp]
    exact List.getElem_mem hp
  have h' : ls.toFinset = Finset.range U := h
  have := List.mem_toFinset.2 hmem
  rw [h'] at this
  exact Finset.mem_range.1 this

/-- Characterization of the inner loop of `_compute_correlograms_numba`. -/
theorem numbaJLoop_char {ts : List ℤ} {ls : List ℕ} {W b : ℤ} (hb : 0 < b)
    (hWb : b ∣ W) (hbW : b ≤ W) (hlen : ls.length = ts.length)
    (hsort : TimesSorted ts) (hnW : NoExactWindowPair ts W) (U i : ℕ) :
    ∀ (fuel j : ℕ) (T : ℕ → ℕ → ℕ → ℕ), U ≤ fuel + j →
      numbaJLoop ts ls W b (numBins W b) U i fuel j T
      = .ok (fun a b' k => T a b' k
          + ∑ jj ∈ Finset.Ico j U,
              cellContrib ts ls W b (numHalfBins W b) (numBins W b) i jj a b' k) := by
  have hW0 : 0 ≤ W := le_trans hb.le hbW
  intro fuel
  induction fuel with
  | zero =>
      intro j T hfj
      simp only [numbaJLoop]
      rw [Finset.Ico_eq_empty (by omega)]
      simp
  | succ fuel ih =>
      intro j T hfj
      simp only [numbaJLoop]
      by_cases hj : j < U
      · rw [if_pos hj]
        by_cases hij : i = j
        · subst hij
          rw [if_pos rfl]
          rw [compute_autocorr_numba_char hb hWb hbW (stream_sorted hlen hsort i)
            (stream_noW hlen hnW i), exceptBind_ok]
          rw [ih (i + 1) _ (by omega)]
          refine congrArg Except.ok (funext fun a => funext fun b' => funext fun k => ?_)
          rw [Finset.sum_eq_sum_Ico_succ_bot hj]
          have hcell : cellContrib ts ls W b (numHalfBins W b) (numBins W b) i i a b' k
              = (if a = i ∧ b' = i ∧ k < numBins W b then
                  autoSpec (spikesOfUnit ts ls i) W b (numHalfBins W b) k else 0) := by
            unfold cellContrib
            rw [if_pos rfl]
          rw [hcell]
          unfold sliceAdd
          split_ifs <;> omega
        · rw [if_neg hij]
          rw [compute_crosscorr_numba_char hb hWb hW0 (stream_sorted hlen hsort i)
            (stream_sorted hlen hsort j), exceptBind_ok]
          rw [ih (j + 1) _ (by omega)]
          refine congrArg Except.ok (funext fun a => funext fun b' => funext fun k => ?_)
          rw [Finset.sum_eq_sum_Ico_succ_bot hj]
          have hcell : cellContrib ts ls W b (numHalfBins W b) (numBins W b) i j a b' k
              = (if a = i ∧ b' = j ∧ k < numBins W b then
                  crossSpec (spikesOfUnit ts ls i) (spikesOfUnit ts ls j) W b
                    (numHalfBins W b) k else 0)
                + (if a = j ∧ b' = i ∧ k < numBins W b then
                  crossSpec (spikesOfUnit ts ls i) (spikesOfUnit ts ls j) W b
                    (numHalfBins W b) (numBins W b - 1 - k) else 0) := by
            unfold cellContrib
            rw [if_neg hij]
          rw [hcell]
          unfold sliceAdd revArr
          split_ifs <;> omega
      · rw [if_neg hj]
        rw [Finset.Ico_eq_empty (by omega)]
        simp

/-- Characterization of the outer (prange) loop of
`_compute_correlograms_numba`. -/
theorem numbaILoop_char {ts : List ℤ} {ls : List ℕ} {W b : ℤ} (hb : 0 < b)
    (hWb : b ∣ W) (hbW : b ≤ W) (hlen : ls.length = ts.length)
    (hsort : TimesSorted ts) (hnW : NoExactWindowPair ts W) (U : ℕ) :
    ∀ (fuel i : ℕ) (T : ℕ → ℕ → ℕ → ℕ), U ≤ fuel + i →
      numbaILoop ts ls W b (numBins W b) U fuel i T
      = .ok (fun a b' k => T a b' k
          + ∑ ii ∈ Finset.Ico i U, ∑ jj ∈ Finset.Ico ii U,
              cellContrib ts ls W b (numHalfBins W b) (numBins W b) ii jj a b' k) := by
  intro fuel
  induction fuel with
  | zero =>
      intro i T hfi
      simp only [numbaILoop]
      rw [Finset.Ico_eq_empty (by omega)]
      simp
  | succ fuel ih =>
      intro i T hfi
      simp only [numbaILoop]
      by_cases hi : i < U
      · rw [if_pos hi]
        rw [numbaJLoop_char hb hWb hbW hlen hsort hnW U i U i T (by omega), exceptBind_ok]
        rw [ih (i + 1) _ (by omega)]
        refine congrArg Except.ok (funext fun a => funext fun b' => funext fun k => ?_)
        rw [Finset.sum_eq_sum_Ico_succ_bot hi (fun ii => ∑ jj ∈ Finset.Ico ii U,
          cellContrib ts ls W b (numHalfBins W b) (numBins W b) ii jj a b' k)]
        beta_reduce
        omega
      · rw [if_neg hi]
        rw [Finset.Ico_eq_empty (by omega)]
        simp

/-- Characterization of one segment of the numba strategy. -/
theorem compute_correlograms_numba_segment_char {ts : List ℤ} {ls : List ℕ} {W b : ℤ}
    (hb : 0 < b) (hWb : b ∣ W) (hbW : b ≤ W) (hlen : ls.length = ts.length)
    (hsort : TimesSorted ts) (hnW : NoExactWindowPair ts W) (U : ℕ)
    (v : ℕ → ℕ → ℕ → ℕ) :
    compute_correlograms_numba_segment ⟨U, numBins W b, v⟩ ts ls W b
    = .ok ⟨U, numBins W b, fun a b' k => v a b' k
        + ∑ ii ∈ Finset.Ico 0 U, ∑ jj ∈ Finset.Ico ii U,
            cellContrib ts ls W b (numHalfBins W b) (numBins W b) ii jj a b' k⟩ := by
  unfold compute_correlograms_numba_segment
  rw [numbaILoop_char hb hWb hbW hlen hsort hnW U U 0 v (by omega), exceptBind_ok]

/-- One inner-loop iteration contributes exactly to the cell of its unit
pair. -/
theorem cellContrib_indicator {ts : List ℤ} {ls : List ℕ} {W b H : ℤ} {nb : ℕ}
    {i j a b' k : ℕ} (hij : i ≤ j) (hk : k < nb) :
    cellContrib ts ls W b H nb i j a b' k
    = if i = min a b' ∧ j = max a b' then numbaCell ts ls W b H nb a b' k else 0 := by
  by_cases hcond : i = min a b' ∧ j = max a b'
  · rw [if_pos hcond]
    obtain ⟨hi, hj⟩ := hcond
    rcases lt_trichotomy a b' with hab | hab | hab
    · have hia : i = a := by omega
      have hjb : j = b' := by omega
      subst hia
      subst hjb
      unfold cellContrib numbaCell
      split_ifs <;> omega
    · have hia : i = a := by omega
      have hjb : j = a := by omega
      subst hab
      subst hia
      subst hjb
      unfold cellContrib numbaCell
      split_ifs <;> omega
    · have hia : i = b' := by omega
      have hjb : j = a := by omega
      subst hia
      subst hjb
      unfold cellContrib numbaCell
      split_ifs <;> omega
  · rw [if_neg hcond]
    unfold cellContrib
    split_ifs <;> omega

/-- Summing the iteration contributions over the triangular loop recovers the
per-cell value. -/
theorem cellSum_collapse {ts : List ℤ} {ls : List ℕ} {W b H : ℤ} {nb U : ℕ}
    {a b' k : ℕ} (ha : a < U) (hb' : b' < U) (hk : k < nb) :
    (∑ ii ∈ Finset.Ico 0 U, ∑ jj ∈ Finset.Ico ii U,
        cellContrib ts ls W b H nb ii jj a b' k)
    = numbaCell ts ls W b H nb a b' k := by
  have h1 : ∀ ii ∈ Finset.Ico 0 U,
      (∑ jj ∈ Finset.Ico ii U, cellContrib ts ls W b H nb ii jj a b' k)
      = if max a b' ∈ Finset.Ico ii U then
          (if ii = min a b' then numbaCell ts ls W b H nb a b' k else 0) else 0 := by
    intro ii _
    rw [Finset.sum_congr rfl (fun jj hjj =>
      cellContrib_indicator (Finset.mem_Ico.1 hjj).1 hk)]
    rw [Finset.sum_congr rfl (fun jj _ => ?_), Finset.sum_ite_eq' (Finset.Ico ii U)
      (max a b') (fun _ => if ii = min a b' then numbaCell ts ls W b H nb a b' k else 0)]
    rw [if_congr (Iff.intro (fun h => And.intro h.2 h.1) (fun h => And.intro h.2 h.1))
      rfl rfl, ite_and]
  rw [Finset.sum_congr rfl h1]
  have h2 : ∀ ii ∈ Finset.Ico 0 U,
      (if max a b' ∈ Finset.Ico ii U then
        (if ii = min a b' then numbaCell ts ls W b H nb a b' k else 0) else 0)
      = if ii = min a b' then
          (if max a b' ∈ Finset.Ico ii U then numbaCell ts ls W b H nb a b' k else 0)
        else 0 := by
    intro ii _
    by_cases h : ii = min a b' <;> by_cases h' : max a b' ∈ Finset.Ico ii U <;> simp [h, h']
  rw [Finset.sum_congr rfl h2, Finset.sum_ite_eq' (Finset.Ico 0 U) (min a b')
    (fun ii => if max a b' ∈ Finset.Ico ii U then numbaCell ts ls W b H nb a b' k else 0)]
  rw [if_pos (Finset.mem_Ico.2 (by omega)), if_pos (Finset.mem_Ico.2 (by omega))]

/-- The numba strategy over all segments: each segment adds its iteration
contributions into the accumulator. -/
theorem numba_fold_char {W b : ℤ} (hb : 0 < b) (hWb : b ∣ W) (hbW : b ≤ W) (U : ℕ) :
    ∀ (segs : List (List ℤ × List ℕ)) (v : ℕ → ℕ → ℕ → ℕ),
      (∀ seg ∈ segs, seg.2.length = seg.1.length ∧ TimesSorted seg.1 ∧
        NoExactWindowPair seg.1 W) →
      segs.foldlM (fun acc seg =>
          compute_correlograms_numba_segment acc seg.1 seg.2 W b)
        (⟨U, numBins W b, v⟩ : NPTensor)
      = .ok ⟨U, numBins W b, fun a b' k => v a b' k
          + (segs.map (fun seg => ∑ ii ∈ Finset.Ico 0 U, ∑ jj ∈ Finset.Ico ii U,
              cellContrib seg.1 seg.2 W b (numHalfBins W b) (numBins W b)
                ii jj a b' k)).sum⟩ := by
  intro segs
  induction segs with
  | nil =>
      intro v _
      simp only [List.foldlM_nil, List.map_nil, List.sum_nil]
      rfl
  | cons seg rest ih =>
      intro v hsegs
      obtain ⟨hl, hs, hn⟩ := hsegs seg (List.mem_cons_self _ _)
      rw [List.foldlM_cons]
      rw [compute_correlograms_numba_segment_char hb hWb hbW hl hs hn U v, exceptBind_ok]
      rw [ih _ (fun sg hsg => hsegs sg (List.mem_cons_of_mem _ hsg))]
      refine congrArg Except.ok (congrArg (NPTensor.mk U (numBins W b)) ?_)
      funext a b' k
      simp only [List.map_cons, List.sum_cons]
      beta_reduce
      omega

/-- Full characterization of `compute_correlograms_numba` on sorted segments
with no exact-window pair. -/
theorem compute_correlograms_numba_ok {W b : ℤ} {s : Sorting} (hb : 0 < b)
    (hWb : b ∣ W) (hbW : b ≤ W)
    (hsegs : ∀ seg ∈ s.segments, seg.2.length = seg.1.length ∧ TimesSorted seg.1 ∧
      NoExactWindowPair seg.1 W) :
    compute_correlograms_numba true s W b
    = .ok ⟨s.num_units, numBins W b, fun a b' k =>
        (s.segments.map (fun seg => ∑ ii ∈ Finset.Ico 0 s.num_units,
          ∑ jj ∈ Finset.Ico ii s.num_units,
            cellContrib seg.1 seg.2 W b (numHalfBins W b) (numBins W b)
              ii jj a b' k)).sum⟩ := by
  unfold compute_correlograms_numba
  rw [if_pos rfl]
  rw [numba_fold_char hb hWb hbW s.num_units s.segments (fun _ _ _ => 0) hsegs]
  refine congrArg Except.ok (congrArg (NPTensor.mk _ _) ?_)
  funext a b' k
  simp

/-! ## Tensor assembly of the numpy strategy -/

/-- The numpy strategy over all segments: on densely labelled segments the
in-place accumulation takes the equal-shape branch and adds the per-segment
pair counts. -/
theorem numpy_fold_char {W b : ℤ} (hb : 0 < b) (hWb : b ∣ W) (hW0 : 0 ≤ W) (U : ℕ) :
    ∀ (segs : List (List ℤ × List ℕ)) (v : ℕ → ℕ → ℕ → ℕ),
      (∀ seg ∈ segs, TimesSorted seg.1 ∧ NoExactWindowPair seg.1 W ∧
        LabelsDense seg.2 U) →
      segs.foldlM (fun acc seg =>
          npAddInto acc (correlogram_for_one_segment seg.1 seg.2 W b))
        (⟨U, numBins W b, v⟩ : NPTensor)
      = .ok ⟨U, numBins W b, fun a b' k => v a b' k
          + (segs.map (fun seg =>
              pairCount seg.1 seg.2 W b (numHalfBins W b) a b' k)).sum⟩ := by
  intro segs
  induction segs with
  | nil =>
      intro v _
      simp only [List.foldlM_nil, List.map_nil, List.sum_nil]
      rfl
  | cons seg rest ih =>
      intro v hsegs
      obtain ⟨hs, hn, hd⟩ := hsegs seg (List.mem_cons_self _ _)
      rw [List.foldlM_cons]
      have hu : (correlogram_for_one_segment seg.1 seg.2 W b).units = U :=
        uniqueCount_of_dense hd
      have hshape : npAddInto ⟨U, numBins W b, v⟩
          (correlogram_for_one_segment seg.1 seg.2 W b)
          = .ok ⟨U, numBins W b, fun a b' k => v a b' k
              + (correlogram_for_one_segment seg.1 seg.2 W b).val a b' k⟩ := by
        unfold npAddInto
        rw [if_pos ⟨hu, rfl⟩]
      rw [hshape, exceptBind_ok]
      rw [ih _ (fun sg hsg => hsegs sg (List.mem_cons_of_mem _ hsg))]
      refine congrArg Except.ok (congrArg (NPTensor.mk U (numBins W b)) ?_)
      funext a b' k
      simp only [List.map_cons, List.sum_cons]
      beta_reduce
      rw [correlogram_for_one_segment_char hb hWb hW0 hs hn a b' k]
      omega

/-- Full characterization of `compute_correlograms_numpy` on valid segments. -/
theorem compute_correlograms_numpy_ok {W b : ℤ} {s : Sorting} (hb : 0 < b)
    (hWb : b ∣ W) (hW0 : 0 ≤ W)
    (hsegs : ∀ seg ∈ s.segments, TimesSorted seg.1 ∧ NoExactWindowPair seg.1 W ∧
      LabelsDense seg.2 s.num_units) :
    compute_correlograms_numpy s W b
    = .ok ⟨s.num_units, numBins W b, fun a b' k =>
        (s.segments.map (fun seg =>
          pairCount seg.1 seg.2 W b (numHalfBins W b) a b' k)).sum⟩ := by
  unfold compute_correlograms_numpy
  rw [numpy_fold_char hb hWb hW0 s.num_units s.segments (fun _ _ _ => 0) hsegs]
  refine congrArg Except.ok (congrArg (NPTensor.mk _ _) ?_)
  funext a b' k
  simp

/-! ## One-segment cell values versus the specification count -/

theorem allOffGrid_noW {ts : List ℤ} {W b : ℤ} (hWb : b ∣ W) (hW0 : 0 ≤ W)
    (h : AllLagsOffGrid ts W b) : NoExactWindowPair ts W := by
  intro p q hp hq hpq hEq
  have := h p q hp hq hpq (by omega) (le_of_eq hEq)
  rw [hEq] at this
  exact this hWb

theorem allOffGrid_cross {ts : List ℤ} {ls : List ℕ} {W b : ℤ}
    (h : AllLagsOffGrid ts W b) : CrossLagsOffGrid ts ls W b := by
  intro p q hp hq hl hge hle
  refine h p q hp hq (fun hpq => hl ?_) hge hle
  rw [hpq]

/-- On a segment with label-distinct pairs off the bin grid, the numpy
specification count of each cell is the numba cell value. -/
theorem pairCount_eq_numbaCell {ts : List ℤ} {ls : List ℕ} {W b : ℤ} (hb : 0 < b)
    (hWb : b ∣ W) (hW0 : 0 ≤ W) (hlen : ls.length = ts.length)
    (hcross : CrossLagsOffGrid ts ls W b) {a b' k : ℕ} (hk : k < numBins W b) :
    pairCount ts ls W b (numHalfBins W b) a b' k
    = numbaCell ts ls W b (numHalfBins W b) (numBins W b) a b' k := by
  have hnbz : ((numBins W b : ℕ) : ℤ) = 2 * numHalfBins W b := by
    unfold numBins
    have := numHalfBins_nonneg hb hW0
    omega
  unfold numbaCell
  by_cases hab : a = b'
  · rw [if_pos hab]
    subst hab
    exact pairCount_auto hlen a k
  · rw [if_neg hab]
    by_cases hlt : a < b'
    · rw [if_pos hlt]
      exact pairCount_cross hlen hab k
    · rw [if_neg hlt]
      rw [pairCount_cross hlen hab k]
      refine crossSpec_mirror hb hWb (numHalfBins_mul hb hWb) hnbz ?_ hk
      intro α β hα hβ hge hle
      obtain ⟨p, hp, hlp, hxp⟩ := spikesOfUnit_mem hlen (getI_mem hα)
      obtain ⟨q, hq, hlq, hxq⟩ := spikesOfUnit_mem hlen (getI_mem hβ)
      rw [← hxp, ← hxq]
      refine hcross p q hp hq ?_ (by omega) (by omega)
      rw [hlp, hlq]
      exact hab

/-! ## Mirror symmetry of the cell values -/

/-- The ideal autocorrelogram is bin-reversal symmetric when no distinct pair
of the train sits on the bin grid. -/
theorem autoSpec_mirror {τ : List ℤ} {W b H : ℤ} {nb : ℕ} (hb : 0 < b) (hWb : b ∣ W)
    (hHW : W = H * b) (hnbz : (nb : ℤ) = 2 * H)
    (hoff : ∀ α β, α < τ.length → β < τ.length → α ≠ β →
      -W ≤ getI τ α - getI τ β → getI τ α - getI τ β ≤ W →
      ¬ b ∣ (getI τ α - getI τ β)) {k : ℕ} (hk : k < nb) :
    autoSpec τ W b H k = autoSpec τ W b H (nb - 1 - k) := by
  unfold autoSpec
  rw [Finset.sum_comm]
  refine Finset.sum_congr rfl (fun α hα => Finset.sum_congr rfl (fun β hβ => ?_))
  simp only [Finset.mem_range] at hα hβ
  by_cases hab : α = β
  · rw [if_neg (fun h => h hab.symm : ¬ β ≠ α), if_neg (fun h => h hab : ¬ α ≠ β)]
  · rw [if_pos (fun h => hab h.symm : β ≠ α), if_pos (fun h => hab h : α ≠ β)]
    unfold crossInd
    have hneg : getI τ α - getI τ β = -(getI τ β - getI τ α) := by ring
    rw [hneg]
    have hcast : (((nb - 1 - k : ℕ)) : ℤ) = (nb : ℤ) - 1 - (k : ℤ) := by omega
    refine if_congr ?_ rfl rfl
    constructor
    · rintro ⟨h1, h2, h3⟩
      have hnd : ¬ b ∣ (getI τ β - getI τ α) :=
        hoff β α hβ hα (fun h => hab h.symm) (by omega) (by omega)
      have hne : getI τ β - getI τ α ≠ -W := fun hEq => hnd (hEq ▸ (dvd_neg.2 hWb))
      have hf := fdiv_neg_of_not_dvd hb hnd
      refine ⟨by omega, by omega, ?_⟩
      rw [hf, hcast]
      omega
    · rintro ⟨h1, h2, h3⟩
      have hnd : ¬ b ∣ (getI τ β - getI τ α) :=
        hoff β α hβ hα (fun h => hab h.symm) (by omega) (by omega)
      have hneW : getI τ β - getI τ α ≠ W := fun hEq => hnd (hEq ▸ hWb)
      have hf := fdiv_neg_of_not_dvd hb hnd
      rw [hf, hcast] at h3
      exact ⟨by omega, by omega, by omega⟩

/-- Mirror symmetry of the per-cell value added by the numba strategy, on a
segment all of whose in-window lags are off the bin grid. -/
theorem numbaCell_mirror {ts : List ℤ} {ls : List ℕ} {W b : ℤ} {k : ℕ}
    (hb : 0 < b) (hWb : b ∣ W) (hlen : ls.length = ts.length)
    (hall : AllLagsOffGrid ts W b)
    (hnbz : ((numBins W b : ℕ) : ℤ) = 2 * numHalfBins W b)
    (hk : k < numBins W b) (a b' : ℕ) :
    numbaCell ts ls W b (numHalfBins W b) (numBins W b) a b' k
    = numbaCell ts ls W b (numHalfBins W b) (numBins W b) b' a (numBins W b - 1 - k) := by
  unfold numbaCell
  rcases lt_trichotomy a b' with hab | hab | hab
  · rw [if_neg (by omega : ¬ a = b'), if_pos hab, if_neg (by omega : ¬ b' = a),
      if_neg (by omega : ¬ b' < a)]
    congr 1
    omega
  · subst hab
    rw [if_pos rfl, if_pos rfl]
    refine autoSpec_mirror hb hWb (numHalfBins_mul hb hWb) hnbz ?_ hk
    have hR := pairwise_stream (R := fun x y =>
      (-W ≤ x - y → x - y ≤ W → ¬ b ∣ (x - y)) ∧
      (-W ≤ y - x → y - x ≤ W → ¬ b ∣ (y - x))) hlen
      (fun p q hpq hq => ⟨fun hge hle => hall p q (by omega) hq (by omega) hge hle,
        fun hge hle => hall q p hq (by omega) (by omega) hge hle⟩) a
    intro α β hα hβ hne hge hle
    rcases Nat.lt_or_ge α β with h | h
    · exact (hR α β h hβ).1 hge hle
    · exact (hR β α (by omega) hα).2 hge hle
  · rw [if_neg (by omega : ¬ a = b'), if_neg (by omega : ¬ a < b'),
      if_neg (by omega : ¬ b' = a), if_pos hab]

/-! ## Conservation: total tensor mass -/

theorem sum_pull2 {s u v : Finset ℕ} (f : ℕ → ℕ → ℕ → ℕ) :
    (∑ x ∈ s, ∑ p ∈ u, ∑ q ∈ v, f x p q)
    = ∑ p ∈ u, ∑ q ∈ v, ∑ x ∈ s, f x p q := by
  rw [Finset.sum_comm]
  exact Finset.sum_congr rfl (fun p _ => Finset.sum_comm)

/-- The bin-index sum over a lag inside the window collapses to one hit. -/
theorem bin_sum_collapse {W b H : ℤ} {nb : ℕ} (hb : 0 < b) (hHW : W = H * b)
    (hnbz : (nb : ℤ) = 2 * H) {d : ℤ} (h1 : -W ≤ d) (h2 : d < W) :
    (∑ k ∈ Finset.range nb, if H + d.fdiv b = (k : ℤ) then (1 : ℕ) else 0) = 1 := by
  have hlo : 0 ≤ H + d.fdiv b := bin_lower hb hHW h1
  have hhi : H + d.fdiv b < 2 * H := bin_upper hb hHW h2
  have hstep : ∀ k ∈ Finset.range nb, (if H + d.fdiv b = (k : ℤ) then (1 : ℕ) else 0)
      = if k = (H + d.fdiv b).toNat then 1 else 0 := by
    intro k _
    refine if_congr ?_ rfl rfl
    omega
  rw [Finset.sum_congr rfl hstep, Finset.sum_ite_eq' (Finset.range nb)
    ((H + d.fdiv b).toNat) (fun _ => (1 : ℕ)), if_pos (Finset.mem_range.2 (by omega))]

/-- Total mass of the ideal cross-correlogram: the number of stream pairs in
the half-open window. -/
theorem crossSpec_total {t1 t2 : List ℤ} {W b H : ℤ} {nb : ℕ} (hb : 0 < b)
    (hHW : W = H * b) (hnbz : (nb : ℤ) = 2 * H) :
    (∑ k ∈ Finset.range nb, crossSpec t1 t2 W b H k)
    = ∑ α ∈ Finset.range t1.length, ∑ β ∈ Finset.range t2.length,
        if -W ≤ getI t1 α - getI t2 β ∧ getI t1 α - getI t2 β < W then 1 else 0 := by
  unfold crossSpec
  rw [Finset.sum_comm]
  refine Finset.sum_congr rfl (fun α _ => ?_)
  rw [Finset.sum_comm]
  refine Finset.sum_congr rfl (fun β _ => ?_)
  unfold crossInd
  by_cases hwin : -W ≤ getI t1 α - getI t2 β ∧ getI t1 α - getI t2 β < W
  · rw [if_pos hwin]
    have hstep : ∀ k ∈ Finset.range nb,
        (if -W ≤ getI t1 α - getI t2 β ∧ getI t1 α - getI t2 β < W ∧
            H + (getI t1 α - getI t2 β).fdiv b = (k : ℤ) then (1 : ℕ) else 0)
        = if H + (getI t1 α - getI t2 β).fdiv b = (k : ℤ) then 1 else 0 := by
      intro k _
      refine if_congr ?_ rfl rfl
      constructor
      · rintro ⟨-, -, h⟩
        exact h
      · intro h
        exact ⟨hwin.1, hwin.2, h⟩
    rw [Finset.sum_congr rfl hstep]
    exact bin_sum_collapse hb hHW hnbz hwin.1 hwin.2
  · rw [if_neg hwin]
    refine Finset.sum_eq_zero (fun k _ => ?_)
    rw [if_neg (fun hc => hwin ⟨hc.1, hc.2.1⟩)]

/-- Swapping the two trains preserves the total mass when no pair is exactly
a window apart. -/
theorem crossSpec_total_swap {t1 t2 : List ℤ} {W b H : ℤ} {nb : ℕ} (hb : 0 < b)
    (hHW : W = H * b) (hnbz : (nb : ℤ) = 2 * H)
    (hnoW : ∀ α β, α < t1.length → β < t2.length →
      getI t1 α - getI t2 β ≠ W ∧ getI t1 α - getI t2 β ≠ -W) :
    (∑ k ∈ Finset.range nb, crossSpec t1 t2 W b H k)
    = ∑ k ∈ Finset.range nb, crossSpec t2 t1 W b H k := by
  rw [crossSpec_total hb hHW hnbz, crossSpec_total hb hHW hnbz, Finset.sum_comm]
  refine Finset.sum_congr rfl (fun β hβ => Finset.sum_congr rfl (fun α hα => ?_))
  simp only [Finset.mem_range] at hα hβ
  obtain ⟨hW1, hW2⟩ := hnoW α β hα hβ
  refine if_congr ?_ rfl rfl
  constructor
  · rintro ⟨x1, x2⟩
    refine ⟨by omega, by omega⟩
  · rintro ⟨x1, x2⟩
    refine ⟨by omega, by omega⟩

/-- Summing the numpy specification count over all cells counts each ordered
in-window event pair exactly once (with the `(-W, W]` boundary policy, which
coincides with the implemented `[-W, W)` one in the absence of exact-window
pairs). -/
theorem pairCount_total {ts : List ℤ} {ls : List ℕ} {W b : ℤ} {U : ℕ} (hb : 0 < b)
    (hWb : b ∣ W) (hW0 : 0 ≤ W) (hlen : ls.length = ts.length)
    (hnW : NoExactWindowPair ts W) (hdense : LabelsDense ls U) :
    (∑ a ∈ Finset.range U, ∑ b' ∈ Finset.range U, ∑ k ∈ Finset.range (numBins W b),
        pairCount ts ls W b (numHalfBins W b) a b' k)
    = orderedPairsInWindow ts W := by
  have hHW : W = numHalfBins W b * b := numHalfBins_mul hb hWb
  have hnbz : ((numBins W b : ℕ) : ℤ) = 2 * numHalfBins W b := by
    unfold numBins
    have := numHalfBins_nonneg hb hW0
    omega
  have hpair : ∀ p q, p < ts.length → q < ts.length →
      (∑ a ∈ Finset.range U, ∑ b' ∈ Finset.range U, ∑ k ∈ Finset.range (numBins W b),
        if p ≠ q ∧ getL ls p = a ∧ getL ls q = b' ∧ -W ≤ lagOf ts p q ∧
            lagOf ts p q < W ∧
            numHalfBins W b + (lagOf ts p q).fdiv b = (k : ℤ) then (1 : ℕ) else 0)
      = if p ≠ q ∧ -W < lagOf ts p q ∧ lagOf ts p q ≤ W then 1 else 0 := by
    intro p q hp hq
    have hlag : lagOf ts p q = getI ts p - getI ts q := rfl
    by_cases hcore : p ≠ q ∧ -W ≤ lagOf ts p q ∧ lagOf ts p q < W
    · have hneqp : getI ts q - getI ts p ≠ W := hnW q p hq hp (fun h => hcore.1 h.symm)
      have hexp : ∀ (a b' k : ℕ), (if p ≠ q ∧ getL ls p = a ∧ getL ls q = b' ∧
            -W ≤ lagOf ts p q ∧ lagOf ts p q < W ∧
            numHalfBins W b + (lagOf ts p q).fdiv b = (k : ℤ) then (1 : ℕ) else 0)
          = if a = getL ls p then (if b' = getL ls q then
              (if numHalfBins W b + (lagOf ts p q).fdiv b = (k : ℤ) then 1 else 0)
            else 0) else 0 := by
        intro a b' k
        by_cases h1 : a = getL ls p
        · by_cases h2 : b' = getL ls q
          · rw [if_pos h1, if_pos h2]
            refine if_congr ?_ rfl rfl
            constructor
            · rintro ⟨-, -, -, -, -, h⟩
              exact h
            · intro h
              exact ⟨hcore.1, h1.symm, h2.symm, hcore.2.1, hcore.2.2, h⟩
          · rw [if_pos h1, if_neg h2, if_neg (fun hC => h2 hC.2.2.1.symm)]
        · rw [if_neg h1, if_neg (fun hC => h1 hC.2.1.symm)]
      rw [Finset.sum_congr rfl (fun a _ => Finset.sum_congr rfl (fun b' _ =>
        Finset.sum_congr rfl (fun k _ => hexp a b' k)))]
      have hA : ∀ a ∈ Finset.range U,
          (∑ b' ∈ Finset.range U, ∑ k ∈ Finset.range (numBins W b),
            if a = getL ls p then (if b' = getL ls q then
              (if numHalfBins W b + (lagOf ts p q).fdiv b = (k : ℤ) then (1 : ℕ) else 0)
            else 0) else 0)
          = if a = getL ls p then
              (∑ b' ∈ Finset.range U, ∑ k ∈ Finset.range (numBins W b),
                if b' = getL ls q then
                  (if numHalfBins W b + (lagOf ts p q).fdiv b = (k : ℤ) then (1 : ℕ) else 0)
                else 0) else 0 := by
        intro a _
        by_cases h : a = getL ls p
        · simp only [if_pos h]
        · simp only [if_neg h, Finset.sum_const_zero]
      rw [Finset.sum_congr rfl hA, Finset.sum_ite_eq' (Finset.range U) (getL ls p)]
      rw [if_pos (Finset.mem_range.2 (dense_getL_lt hdense (by omega)))]
      have hB : ∀ b' ∈ Finset.range U,
          (∑ k ∈ Finset.range (numBins W b),
            if b' = getL ls q then
              (if numHalfBins W b + (lagOf ts p q).fdiv b = (k : ℤ) then (1 : ℕ) else 0)
            else 0)
          = if b' = getL ls q then
              (∑ k ∈ Finset.range (numBins W b),
                if numHalfBins W b + (lagOf ts p q).fdiv b = (k : ℤ) then (1 : ℕ) else 0)
            else 0 := by
        intro b' _
        by_cases h : b' = getL ls q
        · simp only [if_pos h]
        · simp only [if_neg h, Finset.sum_const_zero]
      rw [Finset.sum_congr rfl hB, Finset.sum_ite_eq' (Finset.range U) (getL ls q)]
      rw [if_pos (Finset.mem_range.2 (dense_getL_lt hdense (by omega)))]
      rw [bin_sum_collapse hb hHW hnbz hcore.2.1 hcore.2.2]
      rw [if_pos ⟨hcore.1, by omega, by omega⟩]
    · have hRHS : ¬(p ≠ q ∧ -W < lagOf ts p q ∧ lagOf ts p q ≤ W) := by
        rintro ⟨hc1, hc2, hc3⟩
        have hne : getI ts p - getI ts q ≠ W := hnW p q hp hq hc1
        exact hcore ⟨hc1, by omega, by omega⟩
      rw [if_neg hRHS]
      refine Finset.sum_eq_zero (fun a _ => Finset.sum_eq_zero (fun b' _ =>
        Finset.sum_eq_zero (fun k _ => ?_)))
      rw [if_neg (fun hC => hcore ⟨hC.1, hC.2.2.2.1, hC.2.2.2.2.1⟩)]
  unfold pairCount orderedPairsInWindow
  rw [Finset.sum_congr rfl (fun a _ => Finset.sum_congr rfl (fun b' _ =>
    sum_pull2 (fun k p q =>
      if p ≠ q ∧ getL ls p = a ∧ getL ls q = b' ∧ -W ≤ lagOf ts p q ∧
          lagOf ts p q < W ∧
          numHalfBins W b + (lagOf ts p q).fdiv b = (k : ℤ) then (1 : ℕ) else 0)))]
  rw [Finset.sum_congr rfl (fun a _ =>
    sum_pull2 (fun b' p q => ∑ k ∈ Finset.range (numBins W b),
      if p ≠ q ∧ getL ls p = a ∧ getL ls q = b' ∧ -W ≤ lagOf ts p q ∧
          lagOf ts p q < W ∧
          numHalfBins W b + (lagOf ts p q).fdiv b = (k : ℤ) then (1 : ℕ) else 0))]
  rw [sum_pull2 (fun a p q => ∑ b' ∈ Finset.range U, ∑ k ∈ Finset.range (numBins W b),
    if p ≠ q ∧ getL ls p = a ∧ getL ls q = b' ∧ -W ≤ lagOf ts p q ∧
        lagOf ts p q < W ∧
        numHalfBins W b + (lagOf ts p q).fdiv b = (k : ℤ) then (1 : ℕ) else 0)]
  refine Finset.sum_congr rfl (fun p hp => Finset.sum_congr rfl (fun q hq => ?_))
  simp only [Finset.mem_range] at hp hq
  exact hpair p q hp hq

/-- Per segment, total numba cell mass equals total numpy specification
mass: the bin-reversed lower-triangle cells re-count the upper-triangle mass
with the window boundary reflected, which the no-exact-window-pair hypothesis
makes symmetric. -/
theorem numbaCell_total {ts : List ℤ} {ls : List ℕ} {W b : ℤ} {U : ℕ} (hb : 0 < b)
    (hWb : b ∣ W) (hW0 : 0 ≤ W) (hlen : ls.length = ts.length)
    (hnW : NoExactWindowPair ts W) :
    (∑ a ∈ Finset.range U, ∑ b' ∈ Finset.range U, ∑ k ∈ Finset.range (numBins W b),
        numbaCell ts ls W b (numHalfBins W b) (numBins W b) a b' k)
    = ∑ a ∈ Finset.range U, ∑ b' ∈ Finset.range U, ∑ k ∈ Finset.range (numBins W b),
        pairCount ts ls W b (numHalfBins W b) a b' k := by
  have hHW : W = numHalfBins W b * b := numHalfBins_mul hb hWb
  have hnbz : ((numBins W b : ℕ) : ℤ) = 2 * numHalfBins W b := by
    unfold numBins
    have := numHalfBins_nonneg hb hW0
    omega
  refine Finset.sum_congr rfl (fun a _ => Finset.sum_congr rfl (fun b' _ => ?_))
  rcases lt_trichotomy a b' with hab | hab | hab
  · refine Finset.sum_congr rfl (fun k _ => ?_)
    unfold numbaCell
    rw [if_neg (by omega : ¬ a = b'), if_pos hab, pairCount_cross hlen (by omega) k]
  · subst hab
    refine Finset.sum_congr rfl (fun k _ => ?_)
    unfold numbaCell
    rw [if_pos rfl, pairCount_auto hlen a k]
  · have hcell : ∀ k ∈ Finset.range (numBins W b),
        numbaCell ts ls W b (numHalfBins W b) (numBins W b) a b' k
        = crossSpec (spikesOfUnit ts ls b') (spikesOfUnit ts ls a) W b (numHalfBins W b)
            (numBins W b - 1 - k) := by
      intro k _
      unfold numbaCell
      rw [if_neg (by omega : ¬ a = b'), if_neg (by omega : ¬ a < b')]
    rw [Finset.sum_congr rfl hcell]
    rw [Finset.sum_range_reflect (fun k => crossSpec (spikesOfUnit ts ls b')
      (spikesOfUnit ts ls a) W b (numHalfBins W b) k) (numBins W b)]
    rw [Finset.sum_congr rfl (fun k _ => pairCount_cross hlen (by omega : a ≠ b') k)]
    refine crossSpec_total_swap hb hHW hnbz ?_
    intro α β hα hβ
    obtain ⟨p, hp, hlp, hxp⟩ := spikesOfUnit_mem hlen (getI_mem hα)
    obtain ⟨q, hq, hlq, hxq⟩ := spikesOfUnit_mem hlen (getI_mem hβ)
    have hpq : p ≠ q := by
      intro h
      rw [h, hlq] at hlp
      omega
    have h1 := hnW p q hp hq hpq
    have h2 := hnW q p hq hp (fun h => hpq h.symm)
    constructor
    · rw [← hxp, ← hxq]
      exact h1
    · rw [← hxp, ← hxq]
      intro hEq
      exact h2 (by omega)

/-- A triple cell sum of per-segment contributions commutes with the
accumulation over segments. -/
theorem sum3_list_swap {U nb : ℕ} {σ : Type} (L : List σ) (g : σ → ℕ → ℕ → ℕ → ℕ) :
    (∑ a ∈ Finset.range U, ∑ b' ∈ Finset.range U, ∑ k ∈ Finset.range nb,
      (L.map (fun x => g x a b' k)).sum)
    = (L.map (fun x => ∑ a ∈ Finset.range U, ∑ b' ∈ Finset.range U,
        ∑ k ∈ Finset.range nb, g x a b' k)).sum := by
  induction L with
  | nil => simp
  | cons x xs ih =>
      simp only [List.map_cons, List.sum_cons, Finset.sum_add_distrib, ih]

theorem pythonRound_nonneg {q : ℚ} (hq : 0 ≤ q) : 0 ≤ pythonRound q := by
  have h0 : (0 : ℤ) ≤ ⌊q⌋ := Int.le_floor.2 (by exact_mod_cast hq)
  unfold pythonRound
  dsimp only
  split
  · exact h0
  · split
    · omega
    · split <;> omega

/-! ## Bin planner claims (C6, C7) -/

/-- C6: whenever the bin planner succeeds on positive inputs, it returns
exactly `bin_size = round(fs * bin_ms / 1000)`, `window_size` equal to
`round(fs * window_ms / 2 / 1000)` truncated down to the nearest multiple of
`bin_size` (so `bin_size` divides `window_size`), an even
`num_bins = 2 * (window_size // bin_size)` that is at least 2, and bin edges
`arange(-window_size, window_size + bin_size, bin_size) * 1000 / fs`, which
is the arithmetic progression `-window_size + k * bin_size` for
`0 ≤ k ≤ num_bins`, scaled to milliseconds. -/
theorem claim_C6_bin_planner (fs wm bm : ℚ) (hfs : 0 < fs) (hwm : 0 < wm) (hbm : 0 < bm)
    (bins : List ℚ) (ws bs : ℤ) (h : makeBins fs wm bm = .ok (bins, ws, bs)) :
    bs = pythonRound (fs * bm * (1/1000)) ∧
    ws = pythonRound (fs * wm / 2 * (1/1000)) - (pythonRound (fs * wm / 2 * (1/1000))).fmod bs ∧
    bs ∣ ws ∧
    Even (2 * ws.fdiv bs) ∧
    2 ≤ 2 * ws.fdiv bs ∧
    bins = (List.range ((2 * ws.fdiv bs).toNat + 1)).map
      (fun k : ℕ => ((-ws + (k : ℤ) * bs : ℤ) : ℚ) * 1000 / fs) := by
  unfold makeBins at h
  dsimp only at h
  by_cases hz : pythonRound (fs * bm * (1/1000)) = 0
  · rw [if_pos hz] at h
    exact absurd h (by simp)
  rw [if_neg hz] at h
  by_cases hnb : (1 : ℤ) ≤ 2 * ((pythonRound (fs * wm / 2 * (1/1000)) -
      (pythonRound (fs * wm / 2 * (1/1000))).fmod (pythonRound (fs * bm * (1/1000)))).fdiv
      (pythonRound (fs * bm * (1/1000))))
  swap
  · rw [if_neg hnb] at h
    exact absurd h (by simp)
  rw [if_pos hnb] at h
  simp only [Except.ok.injEq, Prod.mk.injEq] at h
  obtain ⟨hbins, hws, hbs⟩ := h
  have hbspos : 0 < bs := by
    have := pythonRound_nonneg (q := fs * bm * (1/1000)) (by positivity)
    omega
  subst hbs
  set r : ℤ := pythonRound (fs * wm / 2 * (1/1000)) with hr
  set bsv : ℤ := pythonRound (fs * bm * (1/1000)) with hbsv
  have hws' : ws = bsv * (r.fdiv bsv) := by
    rw [hws.symm]
    have := Int.fdiv_add_fmod r bsv
    omega
  have hdvd : bsv ∣ ws := ⟨r.fdiv bsv, hws'⟩
  obtain ⟨H, hwsH⟩ := hdvd
  have hfd : ws.fdiv bsv = H := by
    rw [hwsH, mul_comm, mul_fdiv_cancel' hbspos.ne']
  have hnb' : 1 ≤ 2 * ws.fdiv bsv := by
    rw [hws] at hnb
    exact hnb
  refine ⟨rfl, hws.symm, ⟨H, hwsH⟩, even_two_mul _, by omega, ?_⟩
  · rw [← hbins, hws]
    have hHpos : 1 ≤ H := by
      rw [hfd] at hnb'
      omega
    have harg : ws + bsv - -ws + bsv - 1 = (bsv - 1) + bsv * (2 * H + 1) := by
      rw [hwsH]
      ring
    have hcnt : ((ws + bsv - -ws + bsv - 1).fdiv bsv).toNat = (2 * H).toNat + 1 := by
      rw [harg, fdiv_eq_ediv' _ hbspos, Int.add_mul_ediv_left _ _ hbspos.ne',
        Int.ediv_eq_zero_of_lt (by omega) (by omega)]
      omega
    unfold arangeZ
    rw [hcnt, List.map_map, hfd]
    rfl

/-- C6 witness: the planner at `sampling_rate = 1000`, `window_ms = 50`,
`bin_ms = 5` returns `window_size = 25`, `bin_size = 5`, `num_bins = 10`, and
edges `[-25, -20, ..., 20, 25]` ms, and the C6 characterization holds there. -/
theorem claim_C6_bin_planner_witness :
    makeBins 1000 50 5 =
      .ok ([-25, -20, -15, -10, -5, 0, 5, 10, 15, 20, 25], 25, 5) ∧
    2 * (25 : ℤ).fdiv 5 = 10 ∧
    ((5 : ℤ) = pythonRound ((1000 : ℚ) * 5 * (1/1000)) ∧
      (25 : ℤ) = pythonRound ((1000 : ℚ) * 50 / 2 * (1/1000)) -
        (pythonRound ((1000 : ℚ) * 50 / 2 * (1/1000))).fmod 5 ∧
      (5 : ℤ) ∣ 25 ∧
      Even (2 * (25 : ℤ).fdiv 5) ∧
      2 ≤ 2 * (25 : ℤ).fdiv 5 ∧
      ([-25, -20, -15, -10, -5, 0, 5, 10, 15, 20, 25] : List ℚ) =
        (List.range ((2 * (25 : ℤ).fdiv 5).toNat + 1)).map
          (fun k : ℕ => ((-25 + (k : ℤ) * 5 : ℤ) : ℚ) * 1000 / 1000)) := by
  have h : makeBins 1000 50 5 =
      .ok ([-25, -20, -15, -10, -5, 0, 5, 10, 15, 20, 25], 25, 5) := by
    with_unfolding_all rfl
  exact ⟨h, by with_unfolding_all rfl,
    claim_C6_bin_planner 1000 50 5 (by norm_num) (by norm_num) (by norm_num) _ 25 5 h⟩

/-- C7: for positive inputs on which the derived `num_bins` is below 1 —
including a `bin_size` that rounds to 0, where the truncation
`window_size % bin_size` raises `ZeroDivisionError` — the planner fails and
returns no partial result (no edges, no geometry). -/
theorem claim_C7_invalid_geometry (fs wm bm : ℚ) (hfs : 0 < fs) (hwm : 0 < wm) (hbm : 0 < bm)
    (hdeg : pythonRound (fs * bm * (1/1000)) = 0 ∨
      2 * ((pythonRound (fs * wm / 2 * (1/1000)) -
        (pythonRound (fs * wm / 2 * (1/1000))).fmod (pythonRound (fs * bm * (1/1000)))).fdiv
        (pythonRound (fs * bm * (1/1000)))) < 1) :
    ∃ e, makeBins fs wm bm = .error e := by
  unfold makeBins
  dsimp only
  rcases hdeg with hz | hnb
  · exact ⟨_, by rw [if_pos hz]⟩
  · by_cases hz : pythonRound (fs * bm * (1/1000)) = 0
    · exact ⟨_, by rw [if_pos hz]⟩
    · exact ⟨_, by rw [if_neg hz, if_neg (by omega)]⟩

/-- C7 witness: at `sampling_rate = 1000`, `window_ms = 50`,
`bin_ms = 0.0001`, the bin size rounds to 0 and the planner fails. -/
theorem claim_C7_invalid_geometry_witness :
    (0 : ℚ) < 1000 ∧ (0 : ℚ) < 50 ∧ (0 : ℚ) < 1/10000 ∧
    ∃ e, makeBins 1000 50 (1/10000) = .error e :=
  ⟨by norm_num, by norm_num, by norm_num,
    claim_C7_invalid_geometry 1000 50 (1/10000) (by norm_num) (by norm_num) (by norm_num)
      (Or.inl (by with_unfolding_all rfl))⟩

/-! ## Boundary behaviour claim (C3) -/

/-- C3: the claim states that with `sampling_rate = 30000`, `window_ms = 2`,
`bin_ms = 1` (so `window_size = bin_size = 30`, `num_bins = 2`), two events of
one unit exactly 30 samples apart contribute no count to either
autocorrelogram bin under both strategies.  The code does otherwise: the
numpy strategy counts the pair once, in bin 0 (the most negative bin), and
the numba strategy attempts an out-of-bounds write at index
`num_bins` (undefined behaviour under numba; an error in this embedding).
Two events 29 samples apart are counted once in each of the two bins under
both strategies. -/
theorem claim_C3_boundary_eval :
    (resultEntry (compute_correlograms_on_sorting false
        ⟨30000, 1, [([0, 30], [0, 0])]⟩ 2 1 "numpy") 0 0 0 = some 1 ∧
      resultEntry (compute_correlograms_on_sorting false
        ⟨30000, 1, [([0, 30], [0, 0])]⟩ 2 1 "numpy") 0 0 1 = some 0) ∧
    exceptOk (compute_correlograms_on_sorting true
        ⟨30000, 1, [([0, 30], [0, 0])]⟩ 2 1 "numba") = false ∧
    (resultEntry (compute_correlograms_on_sorting false
        ⟨30000, 1, [([0, 29], [0, 0])]⟩ 2 1 "numpy") 0 0 0 = some 1 ∧
      resultEntry (compute_correlograms_on_sorting false
        ⟨30000, 1, [([0, 29], [0, 0])]⟩ 2 1 "numpy") 0 0 1 = some 1) ∧
    (resultEntry (compute_correlograms_on_sorting true
        ⟨30000, 1, [([0, 29], [0, 0])]⟩ 2 1 "numba") 0 0 0 = some 1 ∧
      resultEntry (compute_correlograms_on_sorting true
        ⟨30000, 1, [([0, 29], [0, 0])]⟩ 2 1 "numba") 0 0 1 = some 1) := by
  refine ⟨⟨?_, ?_⟩, ?_, ⟨?_, ?_⟩, ⟨?_, ?_⟩⟩ <;> with_unfolding_all rfl

/-! ## Empty-input claim (C5) -/

/-- C5: the claim states that with zero events each strategy returns an
all-zero `(num_units, num_units, num_bins)` tensor and never raises.  The
numba strategy does; the numpy strategy raises a broadcast `ValueError`,
because `correlogram_for_one_segment` sizes its per-segment tensor by
`len(np.unique(spike_labels))` (which is 0 for an empty segment) and the
in-place `correlograms += c0` cannot broadcast shape `(0, 0, num_bins)` into
`(num_units, num_units, num_bins)`.  Evaluated at one unit, one empty
segment, `window_size = 25`, `bin_size = 1`. -/
theorem claim_C5_empty_input_eval :
    exceptOk (compute_correlograms_numpy ⟨1000, 1, [([], [])]⟩ 25 1) = false ∧
    tensorShape (compute_correlograms_numba true ⟨1000, 1, [([], [])]⟩ 25 1) = some (1, 50) ∧
    tensorTotalE (compute_correlograms_numba true ⟨1000, 1, [([], [])]⟩ 25 1) = some 0 := by
  refine ⟨?_, ?_, ?_⟩ <;> with_unfolding_all rfl

/-! ## Strategy-selection claim (C8) -/

/-- C8 counterexample: the claim states that an explicit `method="numba"`
request without the numba backend falls back to the numpy strategy with a
non-fatal signal.  Instead `compute_correlograms_numba` raises
`AssertionError` and the call fails with no result. -/
theorem claim_C8_counterexample :
    compute_correlograms_on_sorting false ⟨1000, 1, [([], [])]⟩ 50 1 "numba" =
      .error "AssertionError: numba version of this function requires installation of numba" := by
  with_unfolding_all rfl

/-- C8 amended: with `method="auto"`, `compute_correlograms_on_sorting`
behaves exactly as with `"numba"` when the backend is available and exactly
as with `"numpy"` otherwise; but an explicit `"numba"` request without the
backend is fatal: the call always ends in an error (the geometry error if the
planner fails first, otherwise the backend `AssertionError`) — there is no
fallback to the vectorized strategy. -/
theorem claim_C8_auto_selection_amended (hn : Bool) (s : Sorting) (wm bm : ℚ) :
    compute_correlograms_on_sorting hn s wm bm "auto" =
      compute_correlograms_on_sorting hn s wm bm (if hn then "numba" else "numpy") ∧
    ∃ e, compute_correlograms_on_sorting false s wm bm "numba" = .error e := by
  constructor
  · cases hn <;> rfl
  · unfold compute_correlograms_on_sorting
    cases hmb : makeBins s.sampling_frequency wm bm with
    | error e => exact ⟨e, by simp [hmb]⟩
    | ok v =>
        obtain ⟨bins, ws, bs⟩ := v
        exact ⟨"AssertionError: numba version of this function requires installation of numba",
          by
            simp only [hmb]
            rfl⟩

/-! ## Deprecated helper arity claim (C9) -/

/-- C9: for every input (with the numba backend available, past the
`assert HAVE_NUMBA`), `compute_autocorrelogram_from_spiketrain` and
`compute_crosscorrelogram_from_spiketrain` raise `TypeError` instead of
returning a correlogram: they call the six-parameter
`_compute_correlograms_one_segment_numba` with three and four positional
arguments respectively. -/
theorem claim_C9_arity_error (spike_times spike_times2 : List ℤ) (window_size bin_size : ℤ) :
    compute_autocorrelogram_from_spiketrain true spike_times window_size bin_size =
      .error "TypeError: missing required positional arguments" ∧
    compute_crosscorrelogram_from_spiketrain true spike_times spike_times2 window_size bin_size =
      .error "TypeError: missing required positional arguments" :=
  ⟨rfl, rfl⟩

/-! ## Safety claim on the autocorrelogram kernel (C10) -/

/-- C10 counterexample: the claim states every index `num_half_bins + bin`
written by `_compute_autocorr_numba` lies in `[0, num_bins)`, in particular
for two spikes exactly `window_size` apart.  With spikes `[0, 30]` and
`window_size = bin_size = 30` (`num_bins = 2`), the pair has
`diff = window_size`, is not skipped by the `diff > window_size` break, and
the first write targets index `num_half_bins + 30 // 30 = 2 = num_bins`,
out of bounds. -/
theorem claim_C10_counterexample :
    compute_autocorr_numba [0, 30] 30 30 = .error "IndexError: index out of bounds" := by
  with_unfolding_all rfl

/-! ## Strategy equivalence counterexample (C1) -/

/-- C1 counterexample: the two strategies are not bit-identical on all valid
inputs.  With two units, spikes `[0, 2]` with labels `[0, 1]` (time-ordered,
densely labelled), `window_ms = 8`, `bin_ms = 2` at 1000 Hz
(`window_size = 4`, `bin_size = 2`, `num_bins = 4`): the lag `+2` is an exact
bin boundary; numpy bins it by floor division into bin 3, while numba mirrors
unit 0's correlogram by bin reversal into bin 2. -/
theorem claim_C1_counterexample :
    (resultEntry (compute_correlograms_on_sorting false
        ⟨1000, 2, [([0, 2], [0, 1])]⟩ 8 2 "numpy") 1 0 2 = some 0 ∧
      resultEntry (compute_correlograms_on_sorting false
        ⟨1000, 2, [([0, 2], [0, 1])]⟩ 8 2 "numpy") 1 0 3 = some 1) ∧
    (resultEntry (compute_correlograms_on_sorting true
        ⟨1000, 2, [([0, 2], [0, 1])]⟩ 8 2 "numba") 1 0 2 = some 1 ∧
      resultEntry (compute_correlograms_on_sorting true
        ⟨1000, 2, [([0, 2], [0, 1])]⟩ 8 2 "numba") 1 0 3 = some 0) := by
  refine ⟨⟨?_, ?_⟩, ⟨?_, ?_⟩⟩ <;> with_unfolding_all rfl

/-! ## Mirror-symmetry counterexample (C2) -/

/-- C2 counterexample: mirror symmetry fails on the code for lags that are
exact multiples of `bin_size`.  With one unit, spikes `[0, 2]`,
`window_size = 4`, `bin_size = 2` (`num_bins = 4`), both strategies return
autocorrelogram `[0, 1, 0, 1]`, and reversing the bin axis gives
`[1, 0, 1, 0] ≠ [0, 1, 0, 1]`: the entry at bin 1 differs from the entry at
its mirror bin `num_bins - 1 - 1 = 2`. -/
theorem claim_C2_counterexample :
    (resultEntry (compute_correlograms_on_sorting false
        ⟨1000, 1, [([0, 2], [0, 0])]⟩ 8 2 "numpy") 0 0 1 = some 1 ∧
      resultEntry (compute_correlograms_on_sorting false
        ⟨1000, 1, [([0, 2], [0, 0])]⟩ 8 2 "numpy") 0 0 2 = some 0) ∧
    (resultEntry (compute_correlograms_on_sorting true
        ⟨1000, 1, [([0, 2], [0, 0])]⟩ 8 2 "numba") 0 0 1 = some 1 ∧
      resultEntry (compute_correlograms_on_sorting true
        ⟨1000, 1, [([0, 2], [0, 0])]⟩ 8 2 "numba") 0 0 2 = some 0) := by
  refine ⟨⟨?_, ?_⟩, ⟨?_, ?_⟩⟩ <;> with_unfolding_all rfl

/-! ## Conservation counterexample (C4) -/

/-- C4 counterexample: with two units, spikes `[0, 4]`, labels `[0, 1]`,
`window_size = 4`, `bin_size = 2`, there is exactly one ordered event pair
with signed difference in `(-window_size, window_size]` (the difference `+4`),
but the numba strategy's tensor sums to 2: `_compute_crosscorr_numba` counts
the `diff = -window_size` pair once and the mirroring into the symmetric
entry counts it again. -/
theorem claim_C4_counterexample :
    resultTotal (compute_correlograms_on_sorting true
      ⟨1000, 2, [([0, 4], [0, 1])]⟩ 8 2 "numba") = some 2 ∧
    orderedPairsInWindow [0, 4] 4 = 1 := by
  refine ⟨?_, ?_⟩ <;> with_unfolding_all rfl

/-! ## Amended whole-tensor claims (C1, C2, C4, C10)

On valid inputs whose lags avoid the half-open-binning boundary artifacts,
the two strategies are characterized exactly, and the equivalence, mirror and
conservation properties hold as the specification states them. -/

/-- Claim C1 (amended): on valid inputs — per-segment label and time arrays
of equal length, events time-ordered ascending, labels densely covering
`0 .. num_units - 1`, `window_size` a positive exact multiple of `bin_size`,
and additionally no two events exactly `window_size` apart and no
label-distinct pair within the window separated by an exact multiple of
`bin_size` — the vectorized (numpy) strategy and the pairwise (numba)
strategy both succeed with tensors of shape
`(num_units, num_units, num_bins)` that agree on every entry.  Without the
two additional off-boundary hypotheses the original claim is false: pairs on
a bin boundary are floor-divided by numpy but bin-reversed by numba's
mirroring, and exact-window pairs are miscounted by numpy and are an
out-of-bounds write in numba. -/
theorem claim_C1_amended {W b : ℤ} {s : Sorting} (hb : 0 < b) (hWb : b ∣ W)
    (hbW : b ≤ W)
    (hsegs : ∀ seg ∈ s.segments, seg.2.length = seg.1.length ∧ TimesSorted seg.1 ∧
      NoExactWindowPair seg.1 W ∧ LabelsDense seg.2 s.num_units ∧
      CrossLagsOffGrid seg.1 seg.2 W b) :
    ∃ Tnp Tnb : NPTensor,
      compute_correlograms_numpy s W b = .ok Tnp ∧
      compute_correlograms_numba true s W b = .ok Tnb ∧
      Tnp.units = s.num_units ∧ Tnp.bins = numBins W b ∧
      Tnb.units = s.num_units ∧ Tnb.bins = numBins W b ∧
      ∀ a b' k, a < s.num_units → b' < s.num_units → k < numBins W b →
        Tnp.val a b' k = Tnb.val a b' k := by
  have hW0 : 0 ≤ W := le_trans hb.le hbW
  refine ⟨_, _, compute_correlograms_numpy_ok hb hWb hW0
      (fun seg hseg => ⟨(hsegs seg hseg).2.1, (hsegs seg hseg).2.2.1,
        (hsegs seg hseg).2.2.2.1⟩),
    compute_correlograms_numba_ok hb hWb hbW
      (fun seg hseg => ⟨(hsegs seg hseg).1, (hsegs seg hseg).2.1,
        (hsegs seg hseg).2.2.1⟩),
    rfl, rfl, rfl, rfl, ?_⟩
  intro a b' k ha hb' hk
  show (s.segments.map (fun seg =>
      pairCount seg.1 seg.2 W b (numHalfBins W b) a b' k)).sum
    = (s.segments.map (fun seg => ∑ ii ∈ Finset.Ico 0 s.num_units,
        ∑ jj ∈ Finset.Ico ii s.num_units,
          cellContrib seg.1 seg.2 W b (numHalfBins W b) (numBins W b) ii jj a b' k)).sum
  refine congrArg List.sum (List.map_congr_left (fun seg hseg => ?_))
  rw [cellSum_collapse ha hb' hk]
  exact pairCount_eq_numbaCell hb hWb hW0 (hsegs seg hseg).1
    (hsegs seg hseg).2.2.2.2 hk

/-- Claim C1 witness: the amended equivalence applies to a concrete valid
input (two units, one segment with spikes `[0, 3]`, labels `[0, 1]`,
`window_size = 4`, `bin_size = 2`). -/
theorem claim_C1_amended_witness :
    ∃ Tnp Tnb : NPTensor,
      compute_correlograms_numpy ⟨1000, 2, [([0, 3], [0, 1])]⟩ 4 2 = .ok Tnp ∧
      compute_correlograms_numba true ⟨1000, 2, [([0, 3], [0, 1])]⟩ 4 2 = .ok Tnb ∧
      Tnp.units = (⟨1000, 2, [([0, 3], [0, 1])]⟩ : Sorting).num_units ∧
      Tnp.bins = numBins 4 2 ∧
      Tnb.units = (⟨1000, 2, [([0, 3], [0, 1])]⟩ : Sorting).num_units ∧
      Tnb.bins = numBins 4 2 ∧
      ∀ a b' k, a < (⟨1000, 2, [([0, 3], [0, 1])]⟩ : Sorting).num_units →
        b' < (⟨1000, 2, [([0, 3], [0, 1])]⟩ : Sorting).num_units → k < numBins 4 2 →
        Tnp.val a b' k = Tnb.val a b' k :=
  claim_C1_amended (by decide) ⟨2, by decide⟩ (by decide)
    (by with_unfolding_all decide)

/-- Claim C2 (amended): mirror symmetry `tensor[A, B, :] reversed =
tensor[B, A, :]` holds for both strategies on valid inputs whose in-window
lags between distinct events all avoid exact multiples of `bin_size`.
Without that hypothesis the original claim is false for both strategies: a
lag on a bin boundary falls in a half-open bin whose mirror bin stays
empty. -/
theorem claim_C2_amended {W b : ℤ} {s : Sorting} (hb : 0 < b) (hWb : b ∣ W)
    (hbW : b ≤ W)
    (hsegs : ∀ seg ∈ s.segments, seg.2.length = seg.1.length ∧ TimesSorted seg.1 ∧
      LabelsDense seg.2 s.num_units ∧ AllLagsOffGrid seg.1 W b) :
    ∃ Tnp Tnb : NPTensor,
      compute_correlograms_numpy s W b = .ok Tnp ∧
      compute_correlograms_numba true s W b = .ok Tnb ∧
      ∀ a b' k, a < s.num_units → b' < s.num_units → k < numBins W b →
        Tnp.val a b' k = Tnp.val b' a (numBins W b - 1 - k) ∧
        Tnb.val a b' k = Tnb.val b' a (numBins W b - 1 - k) := by
  have hW0 : 0 ≤ W := le_trans hb.le hbW
  have hnbz : ((numBins W b : ℕ) : ℤ) = 2 * numHalfBins W b := by
    unfold numBins
    have := numHalfBins_nonneg hb hW0
    omega
  have hnW : ∀ seg ∈ s.segments, NoExactWindowPair seg.1 W :=
    fun seg hseg => allOffGrid_noW hWb hW0 (hsegs seg hseg).2.2.2
  refine ⟨_, _, compute_correlograms_numpy_ok hb hWb hW0
      (fun seg hseg => ⟨(hsegs seg hseg).2.1, hnW seg hseg, (hsegs seg hseg).2.2.1⟩),
    compute_correlograms_numba_ok hb hWb hbW
      (fun seg hseg => ⟨(hsegs seg hseg).1, (hsegs seg hseg).2.1, hnW seg hseg⟩), ?_⟩
  intro a b' k ha hb' hk
  constructor
  · show (s.segments.map (fun seg =>
        pairCount seg.1 seg.2 W b (numHalfBins W b) a b' k)).sum
      = (s.segments.map (fun seg =>
        pairCount seg.1 seg.2 W b (numHalfBins W b) b' a (numBins W b - 1 - k))).sum
    refine congrArg List.sum (List.map_congr_left (fun seg hseg => ?_))
    rw [pairCount_eq_numbaCell hb hWb hW0 (hsegs seg hseg).1
      (allOffGrid_cross (hsegs seg hseg).2.2.2) hk]
    rw [pairCount_eq_numbaCell hb hWb hW0 (hsegs seg hseg).1
      (allOffGrid_cross (hsegs seg hseg).2.2.2)
      (show numBins W b - 1 - k < numBins W b by omega)]
    exact numbaCell_mirror hb hWb (hsegs seg hseg).1 (hsegs seg hseg).2.2.2 hnbz hk a b'
  · show (s.segments.map (fun seg => ∑ ii ∈ Finset.Ico 0 s.num_units,
        ∑ jj ∈ Finset.Ico ii s.num_units,
          cellContrib seg.1 seg.2 W b (numHalfBins W b) (numBins W b) ii jj a b' k)).sum
      = (s.segments.map (fun seg => ∑ ii ∈ Finset.Ico 0 s.num_units,
        ∑ jj ∈ Finset.Ico ii s.num_units,
          cellContrib seg.1 seg.2 W b (numHalfBins W b) (numBins W b) ii jj b' a
            (numBins W b - 1 - k))).sum
    refine congrArg List.sum (List.map_congr_left (fun seg hseg => ?_))
    rw [cellSum_collapse ha hb' hk,
      cellSum_collapse hb' ha (show numBins W b - 1 - k < numBins W b by omega)]
    exact numbaCell_mirror hb hWb (hsegs seg hseg).1 (hsegs seg hseg).2.2.2 hnbz hk a b'

/-- Claim C2 witness: the amended mirror symmetry applies to a concrete valid
input. -/
theorem claim_C2_amended_witness :
    ∃ Tnp Tnb : NPTensor,
      compute_correlograms_numpy ⟨1000, 2, [([0, 3], [0, 1])]⟩ 4 2 = .ok Tnp ∧
      compute_correlograms_numba true ⟨1000, 2, [([0, 3], [0, 1])]⟩ 4 2 = .ok Tnb ∧
      ∀ a b' k, a < (⟨1000, 2, [([0, 3], [0, 1])]⟩ : Sorting).num_units →
        b' < (⟨1000, 2, [([0, 3], [0, 1])]⟩ : Sorting).num_units → k < numBins 4 2 →
        Tnp.val a b' k = Tnp.val b' a (numBins 4 2 - 1 - k) ∧
        Tnb.val a b' k = Tnb.val b' a (numBins 4 2 - 1 - k) :=
  claim_C2_amended (by decide) ⟨2, by decide⟩ (by decide)
    (by with_unfolding_all decide)

/-- Claim C4 (amended): on valid inputs with no two events exactly
`window_size` apart, the sum of all entries of either strategy's tensor
equals the number of ordered event pairs `(i, j)`, `i ≠ j`, within each
segment, whose signed time difference lies strictly within
`(-window_size, window_size]`.  Without the no-exact-window hypothesis the
original claim is false: an exact-window pair is counted once by numpy
(floor division puts lag `-W` in bin 0) and twice by numba's mirroring,
while the spec counts it once. -/
theorem claim_C4_amended {W b : ℤ} {s : Sorting} (hb : 0 < b) (hWb : b ∣ W)
    (hbW : b ≤ W)
    (hsegs : ∀ seg ∈ s.segments, seg.2.length = seg.1.length ∧ TimesSorted seg.1 ∧
      NoExactWindowPair seg.1 W ∧ LabelsDense seg.2 s.num_units) :
    ∃ Tnp Tnb : NPTensor,
      compute_correlograms_numpy s W b = .ok Tnp ∧
      compute_correlograms_numba true s W b = .ok Tnb ∧
      tensorTotal Tnp = (s.segments.map (fun seg => orderedPairsInWindow seg.1 W)).sum ∧
      tensorTotal Tnb = (s.segments.map (fun seg => orderedPairsInWindow seg.1 W)).sum := by
  have hW0 : 0 ≤ W := le_trans hb.le hbW
  refine ⟨_, _, compute_correlograms_numpy_ok hb hWb hW0
      (fun seg hseg => ⟨(hsegs seg hseg).2.1, (hsegs seg hseg).2.2.1,
        (hsegs seg hseg).2.2.2⟩),
    compute_correlograms_numba_ok hb hWb hbW
      (fun seg hseg => ⟨(hsegs seg hseg).1, (hsegs seg hseg).2.1,
        (hsegs seg hseg).2.2.1⟩), ?_, ?_⟩
  · show (∑ a ∈ Finset.range s.num_units, ∑ b' ∈ Finset.range s.num_units,
        ∑ k ∈ Finset.range (numBins W b), (s.segments.map (fun seg =>
          pairCount seg.1 seg.2 W b (numHalfBins W b) a b' k)).sum)
      = (s.segments.map (fun seg => orderedPairsInWindow seg.1 W)).sum
    rw [sum3_list_swap s.segments (fun seg a b' k =>
      pairCount seg.1 seg.2 W b (numHalfBins W b) a b' k)]
    refine congrArg List.sum (List.map_congr_left (fun seg hseg => ?_))
    exact pairCount_total hb hWb hW0 (hsegs seg hseg).1 (hsegs seg hseg).2.2.1
      (hsegs seg hseg).2.2.2
  · show (∑ a ∈ Finset.range s.num_units, ∑ b' ∈ Finset.range s.num_units,
        ∑ k ∈ Finset.range (numBins W b), (s.segments.map (fun seg =>
          ∑ ii ∈ Finset.Ico 0 s.num_units, ∑ jj ∈ Finset.Ico ii s.num_units,
            cellContrib seg.1 seg.2 W b (numHalfBins W b) (numBins W b)
              ii jj a b' k)).sum)
      = (s.segments.map (fun seg => orderedPairsInWindow seg.1 W)).sum
    rw [sum3_list_swap s.segments (fun seg a b' k =>
      ∑ ii ∈ Finset.Ico 0 s.num_units, ∑ jj ∈ Finset.Ico ii s.num_units,
        cellContrib seg.1 seg.2 W b (numHalfBins W b) (numBins W b) ii jj a b' k)]
    refine congrArg List.sum (List.map_congr_left (fun seg hseg => ?_))
    rw [Finset.sum_congr rfl (fun a hA => Finset.sum_congr rfl (fun b' hB =>
      Finset.sum_congr rfl (fun k hK =>
        cellSum_collapse (Finset.mem_range.1 hA) (Finset.mem_range.1 hB)
          (Finset.mem_range.1 hK))))]
    rw [numbaCell_total hb hWb hW0 (hsegs seg hseg).1 (hsegs seg hseg).2.2.1]
    exact pairCount_total hb hWb hW0 (hsegs seg hseg).1 (hsegs seg hseg).2.2.1
      (hsegs seg hseg).2.2.2

/-- Claim C4 witness: the amended conservation applies to a concrete valid
input. -/
theorem claim_C4_amended_witness :
    ∃ Tnp Tnb : NPTensor,
      compute_correlograms_numpy ⟨1000, 2, [([0, 3], [0, 1])]⟩ 4 2 = .ok Tnp ∧
      compute_correlograms_numba true ⟨1000, 2, [([0, 3], [0, 1])]⟩ 4 2 = .ok Tnb ∧
      tensorTotal Tnp = ((⟨1000, 2, [([0, 3], [0, 1])]⟩ : Sorting).segments.map
        (fun seg => orderedPairsInWindow seg.1 4)).sum ∧
      tensorTotal Tnb = ((⟨1000, 2, [([0, 3], [0, 1])]⟩ : Sorting).segments.map
        (fun seg => orderedPairsInWindow seg.1 4)).sum :=
  claim_C4_amended (by decide) ⟨2, by decide⟩ (by decide)
    (by with_unfolding_all decide)

/-- Claim C10 (amended): for a time-ordered spike train with no two spikes
exactly `window_size` apart, and `window_size` a positive exact multiple of
`bin_size`, every index `num_half_bins + bin` written by
`_compute_autocorr_numba` lies within `[0, num_bins)`: the call completes
without an out-of-bounds write.  The "in particular" clause of the original
claim is false: two spikes exactly `window_size` apart survive the
`diff > window_size` break and produce a write at index `num_bins`. -/
theorem claim_C10_amended {τ : List ℤ} {W b : ℤ} (hb : 0 < b) (hWb : b ∣ W)
    (hbW : b ≤ W) (hsort : TimesSorted τ) (hnW : NoExactWindowPair τ W) :
    exceptOk (compute_autocorr_numba τ W b) = true := by
  rw [compute_autocorr_numba_char hb hWb hbW hsort hnW]
  rfl

/-- Claim C10 witness: the amended in-bounds theorem applies to a concrete
train with two spikes 29 samples apart and `window_size = bin_size = 30`. -/
theorem claim_C10_amended_witness :
    exceptOk (compute_autocorr_numba [0, 29] 30 30) = true :=
  claim_C10_amended (by decide) ⟨1, by decide⟩ (by decide)
    (by with_unfolding_all decide) (by with_unfolding_all decide)

end Correlograms
